import Mathlib

/-!
Verification of the PTHash query core (single_phf, skew_bucketer, fastmod,
compact_vector, darray, elias_fano) against its specification.

The definitions below are shallow embeddings of the C++ sources:
machine words are naturals reduced modulo 2^64 (or 2^128 for the Barrett
reciprocals) exactly where the C++ types truncate.  Components of the
repository whose sources are not available (fastmod.h, bit_vector.hpp,
util.hpp bit primitives, the hasher) are modelled from the specification;
each such definition carries a doc comment saying so.
-/

namespace PTHashVerify

/-- Barrett reciprocal for 64-bit divisors.
Modelled from the spec: fastmod.h is not under src/.
Spec section 4.7: computeM_u64(d) = floor(2^128 / d) + 1 as a 128-bit value. -/
def computeM_u64 (d : Nat) : Nat :=
  (2 ^ 128 / d + 1) % 2 ^ 128

/-- Barrett modular reduction, translated from
fastmod_debug::fastmod_u64_debug in src/src/test_fastmod.cpp
(per spec section 9 this is the authoritative fastmod_u64 algorithm,
mirroring fastmod::mul128_u64):
lowbits = M*a (low 128 bits); then multiply lowbits by d taking bits
[127:64] of the 192-bit product via a low/high split. -/
def fastmod_u64 (a M d : Nat) : Nat :=
  let lowbits := M * a % 2 ^ 128
  let bottom_half_prod := lowbits % 2 ^ 64 * d
  let bottom_half_shifted := bottom_half_prod / 2 ^ 64
  let top_half_prod := lowbits / 2 ^ 64 * d
  let both_halves := (bottom_half_shifted + top_half_prod) % 2 ^ 128
  both_halves / 2 ^ 64 % 2 ^ 64

/-- Number of 64-bit words needed for a given number of bits
(essentials::words_for in
src/external/bits/external/essentials/include/essentials.hpp). -/
def words_for (bits : Nat) : Nat :=
  (bits + 63) / 64

/-- Population count of a 64-bit word (util::popcount).
Modelled from the spec: util.hpp is not under src/; the number of set bits
of the word. -/
def popcount (w : Nat) : Nat :=
  ((List.range 64).filter (fun j => w.testBit j)).length

/-- Position of the (k+1)-th set bit of a 64-bit word (util::select_in_word).
Modelled from the spec, section 9: 0-indexed, undefined when
k >= popcount(w) (here the out-of-range default is 0). -/
def select_in_word (w k : Nat) : Nat :=
  ((List.range 64).filter (fun j => w.testBit j)).getD k 0

/-- Bit p of a little-endian packed word sequence:
bit j of word i holds bit 64*i + j (spec section 3). -/
def bitAt (words : List Nat) (p : Nat) : Bool :=
  (words.getD (p / 64) 0).testBit (p % 64)

/-- The ascending list of set-bit positions below numBits.  This is the
sequence of positions reported by the darray build scan
(src/external/bits/include/darray.hpp, build: lsbll over each word,
skipping positions at or beyond B.num_bits()). -/
def bitPositions (words : List Nat) (numBits : Nat) : List Nat :=
  (List.range (64 * words.length)).filter
    (fun p => decide (p < numBits) && bitAt words p)

/-- Element mask of a compact vector:
m_mask = -(w == 64) | ((1 << w) - 1)
(src/external/bits/include/compact_vector.hpp, builder::resize). -/
def cvMask (w : Nat) : Nat :=
  if w = 64 then 2 ^ 64 - 1 else 2 ^ w - 1

/-- Fixed-width packed vector
(src/external/bits/include/compact_vector.hpp). -/
structure compact_vector where
  m_size : Nat
  m_width : Nat
  m_mask : Nat
  m_data : List Nat

/-- compact_vector::operator[]
(src/external/bits/include/compact_vector.hpp lines 217-225). -/
def compact_vector.read (cv : compact_vector) (i : Nat) : Nat :=
  let pos := i * cv.m_width
  let block := pos / 64
  let shift := pos % 64
  if shift + cv.m_width ≤ 64 then
    cv.m_data.getD block 0 >>> shift &&& cv.m_mask
  else
    cv.m_data.getD block 0 >>> shift |||
      (cv.m_data.getD (block + 1) 0 <<< (64 - shift) % 2 ^ 64 &&& cv.m_mask)

/-- compact_vector::access: same read with an explicit bounds check on the
second word (src/external/bits/include/compact_vector.hpp lines 227-259). -/
def compact_vector.access (cv : compact_vector) (i : Nat) : Nat :=
  let pos := i * cv.m_width
  let block := pos / 64
  let shift := pos % 64
  if shift + cv.m_width ≤ 64 then
    cv.m_data.getD block 0 >>> shift &&& cv.m_mask
  else if block + 1 < cv.m_data.length then
    cv.m_data.getD block 0 >>> shift |||
      (cv.m_data.getD (block + 1) 0 <<< (64 - shift) % 2 ^ 64 &&& cv.m_mask)
  else
    cv.m_data.getD block 0 >>> shift &&& cv.m_mask

/-- compact_vector::builder
(src/external/bits/include/compact_vector.hpp). -/
structure cv_builder where
  m_size : Nat
  m_width : Nat
  m_mask : Nat
  m_back : Nat
  m_data : List Nat

/-- builder::resize: n elements of width w, with one spare word
(data size words_for(n*w) + 1). -/
def cvbInit (n w : Nat) : cv_builder :=
  ⟨n, w, cvMask w, 0, List.replicate (words_for (n * w) + 1) 0⟩

/-- builder::set(i, v)
(src/external/bits/include/compact_vector.hpp lines 119-136):
clears the masked range and ors in v (unmasked), spilling into the
following word when the element crosses a word boundary.  All word
updates are 64-bit truncated. -/
def cv_builder.set (b : cv_builder) (i v : Nat) : cv_builder :=
  let pos := i * b.m_width
  let block := pos / 64
  let shift := pos % 64
  let w0 := b.m_data.getD block 0
  let w0' := w0 &&& ((2 ^ 64 - 1) ^^^ b.m_mask <<< shift % 2 ^ 64) ||| v <<< shift % 2 ^ 64
  let data1 := b.m_data.set block w0'
  let res_shift := 64 - shift
  let data2 :=
    if res_shift < b.m_width then
      let w1 := data1.getD (block + 1) 0
      let w1' := w1 &&& ((2 ^ 64 - 1) ^^^ b.m_mask >>> res_shift) ||| v >>> res_shift
      data1.set (block + 1) w1'
    else data1
  { b with m_back := if i = b.m_size - 1 then v else b.m_back, m_data := data2 }

/-- builder::build: moves the fields into a compact_vector. -/
def cv_builder.build (b : cv_builder) : compact_vector :=
  ⟨b.m_size, b.m_width, b.m_mask, b.m_data⟩

/-- Packed bit vector.
Modelled from the spec: bit_vector.hpp is not under src/.
Spec section 3: num_bits bits little-endian in 64-bit words. -/
structure bit_vector where
  m_num_bits : Nat
  m_data : List Nat

/-- Modelled from the spec: bit_vector::builder of n zero bits with
ceil(n/64) words (spec section 3). -/
def bvbInit (n : Nat) : bit_vector :=
  ⟨n, List.replicate (words_for n) 0⟩

/-- Modelled from the spec: bit_vector::builder::set(i, 1); word i/64 gets
bit i%64 set (spec sections 3 and 4.1). -/
def bit_vector.setBit (B : bit_vector) (i : Nat) : bit_vector :=
  { B with m_data := B.m_data.set (i / 64) (B.m_data.getD (i / 64) 0 ||| 1 <<< (i % 64)) }

/-- Select index over a bit vector
(src/external/bits/include/darray.hpp). -/
structure darray where
  m_positions : Nat
  m_block_inventory : List Int
  m_subblock_inventory : List Nat
  m_overflow_positions : List Nat

/-- darray::flush_cur_block
(src/external/bits/include/darray.hpp lines 378-400).
The positions of a super-block arrive in increasing order; the block is
dense when back - front < 2^16, in which case positions[32k] - front is
stored as a u16 (the % 2^16 is the uint16_t cast, an identity for a dense
sorted block); otherwise the block is stored sparse. -/
def flush_cur_block (cur : List Nat) (bi : List Int) (sbi ovf : List Nat) :
    List Int × List Nat × List Nat :=
  if cur.getLastD 0 - cur.headD 0 < 2 ^ 16 then
    (bi ++ [Int.ofNat (cur.headD 0)],
     sbi ++ (List.range ((cur.length + 31) / 32)).map
       (fun k => (cur.getD (32 * k) 0 - cur.headD 0) % 2 ^ 16),
     ovf)
  else
    (bi ++ [-(Int.ofNat ovf.length) - 1],
     sbi ++ List.replicate ((cur.length + 31) / 32) (2 ^ 16 - 1),
     ovf ++ cur)

/-- darray::build main loop
(src/external/bits/include/darray.hpp lines 83-112): positions are
accumulated into blocks of 1024 and flushed; a final partial block is
flushed at the end. -/
def darrayBuildLoop : List Nat → List Nat → List Int → List Nat → List Nat →
    List Int × List Nat × List Nat
  | [], cur, bi, sbi, ovf =>
    if cur.isEmpty then (bi, sbi, ovf) else flush_cur_block cur bi sbi ovf
  | p :: rest, cur, bi, sbi, ovf =>
    let cur' := cur ++ [p]
    if cur'.length = 1024 then
      let st := flush_cur_block cur' bi sbi ovf
      darrayBuildLoop rest [] st.1 st.2.1 st.2.2
    else darrayBuildLoop rest cur' bi sbi ovf

/-- darray::build over the getter-applied words of a bit vector.
For darray1 the words are B.data() verbatim; for darray0 each word is
complemented (64-bit) first. -/
def darray.build (words : List Nat) (numBits : Nat) : darray :=
  let ps := bitPositions words numBits
  let st := darrayBuildLoop ps [] [] [] []
  ⟨ps.length, st.1, st.2.1, st.2.2⟩

/-- The word scan of darray::select
(src/external/bits/include/darray.hpp lines 220-263), with the source's
loop-count safety limit as explicit fuel and the source's bounds checks
returning 0. -/
def selectScanFuel : Nat → List Nat → Nat → Nat → Nat → Nat
  | 0, _, _, _, _ => 0
  | fuel + 1, words, word_idx, word, r =>
    if r < popcount word then 64 * word_idx + select_in_word word r
    else
      let r' := r - popcount word
      let idx' := word_idx + 1
      if words.length ≤ idx' then 0
      else selectScanFuel fuel words idx' (words.getD idx' 0) r'

/-- darray::select
(src/external/bits/include/darray.hpp lines 118-263), including the
source's explicit out-of-bounds checks (which return 0). -/
def darray.select (d : darray) (words : List Nat) (numBits : Nat) (i : Nat) : Nat :=
  let block := i / 1024
  if d.m_block_inventory.length ≤ block then 0
  else
    let block_pos := d.m_block_inventory.getD block 0
    if block_pos < 0 then
      let overflow_pos := (-block_pos - 1).toNat
      let idx := overflow_pos + i % 1024
      if d.m_overflow_positions.length ≤ idx then 0
      else d.m_overflow_positions.getD idx 0
    else
      let subblock := i / 32
      if d.m_subblock_inventory.length ≤ subblock then 0
      else
        let start_pos := block_pos.toNat + d.m_subblock_inventory.getD subblock 0
        let reminder := i % 32
        if reminder = 0 then start_pos
        else
          let word_idx := start_pos / 64
          if words.length ≤ word_idx then 0
          else
            let word := words.getD word_idx 0 &&&
              (2 ^ 64 - 1) <<< (start_pos % 64) % 2 ^ 64
            selectScanFuel (numBits / 64 + 2) words word_idx word reminder

/-- Errors raised by elias_fano::encode; the source throws
std::runtime_error("sequence is not sorted"). -/
inductive ef_error where
  | notSorted
deriving DecidableEq

/-- Monotone sequence container
(src/external/bits/include/elias_fano.hpp), template arguments
index_zeros = false, encode_prefix_sum = false as used for
single_phf::m_free_slots. -/
structure elias_fano where
  m_back : Nat
  m_high_bits : bit_vector
  m_high_bits_d1 : darray
  m_high_bits_d0 : darray
  m_low_bits : compact_vector

/-- Default-constructed elias_fano: m_back = 0 and empty members. -/
def elias_fano.init : elias_fano :=
  ⟨0, ⟨0, []⟩, ⟨0, [], [], []⟩, ⟨0, [], [], []⟩, ⟨0, 0, 0, []⟩⟩

/-- elias_fano::size() = m_low_bits.size(). -/
def elias_fano.size (ef : elias_fano) : Nat :=
  ef.m_low_bits.m_size

/-- The encode write loop
(src/external/bits/include/elias_fano.hpp lines 73-88,
encode_prefix_sum = false): for the i-th value v, check order against the
previous value, write v & low_mask to the low bits when l is nonzero, and
set high bit (v >> l) + i. -/
def efEncodeLoop (l lowMask : Nat) :
    bit_vector → cv_builder → Nat → Nat → List Nat →
    Except ef_error (bit_vector × cv_builder × Nat)
  | hb, lb, _, last, [] => .ok (hb, lb, last)
  | hb, lb, i, last, v :: rest =>
    if 0 < i ∧ v < last then .error .notSorted
    else
      efEncodeLoop l lowMask (hb.setBit (v >>> l + i))
        (if l ≠ 0 then lb.set i (v &&& lowMask) else lb) (i + 1) v rest

/-- elias_fano::encode
(src/external/bits/include/elias_fano.hpp lines 25-95) with
index_zeros = false and encode_prefix_sum = false: n = 0 returns
immediately; the universe defaults to the last element when the caller
passes uint64_t(-1); l = msb(universe/n) when positive else 0; the high
bits get a darray1 index and no darray0 index. -/
def elias_fano.encode (s : List Nat) (universe0 : Nat) :
    Except ef_error elias_fano :=
  let n := s.length
  if n = 0 then .ok elias_fano.init
  else
    let univ := if universe0 = 2 ^ 64 - 1 then s.getLastD 0 else universe0
    let l := if univ / n ≠ 0 then Nat.log2 (univ / n) else 0
    let hbInit := bvbInit (n + (univ >>> l) + 1)
    let lbInit := cvbInit n l
    let lowMask := 1 <<< l - 1
    match efEncodeLoop l lowMask hbInit lbInit 0 0 s with
    | .error e => .error e
    | .ok (hb, lb, last) =>
      .ok ⟨last, hb, darray.build hb.m_data hb.m_num_bits, ⟨0, [], [], []⟩,
        lb.build⟩

/-- elias_fano::access
(src/external/bits/include/elias_fano.hpp lines 163-180):
high_val = d1.select(high_bits, i) - i, low_val = low_bits.access(i),
result (high_val << width) | low_val. -/
def elias_fano.access (ef : elias_fano) (i : Nat) : Nat :=
  let select_result :=
    ef.m_high_bits_d1.select ef.m_high_bits.m_data ef.m_high_bits.m_num_bits i
  let high_val := select_result - i
  let width := ef.m_low_bits.m_width
  let low_val := ef.m_low_bits.access i
  high_val <<< width ||| low_val

/-- MurmurHash2-64A of a single 8-byte word.
Modelled from the spec: the hasher header is not under src/; spec
section 4.8 names MurmurHash2-64A, and section 4.9 a
murmur-finalizer-style 64-bit mixer identical to the producer's
default_hash64.  All multiplications are 64-bit truncated. -/
def murmur_hash2_64 (key seed : Nat) : Nat :=
  let m := 0xc6a4a7935bd1e995
  let r := 47
  let h0 := seed ^^^ 8 * m % 2 ^ 64
  let k1 := key * m % 2 ^ 64
  let k2 := k1 ^^^ k1 >>> r
  let k3 := k2 * m % 2 ^ 64
  let h1 := (h0 ^^^ k3) * m % 2 ^ 64
  let h2 := h1 ^^^ h1 >>> r
  let h3 := h2 * m % 2 ^ 64
  h3 ^^^ h3 >>> r

/-- Modelled from the spec: default_hash64(val, seed) is the
MurmurHash2-64A mix of the 8-byte value with the given seed
(spec section 4.9). -/
def default_hash64 (val seed : Nat) : Nat :=
  murmur_hash2_64 val seed

/-- Modelled from the spec, section 4.8: the hasher produces one 64-bit
hash doubled into the pair (h, h); h1 feeds the bucketer and h2 the
displacement. -/
def hash128_of_key (key seed : Nat) : Nat × Nat :=
  (murmur_hash2_64 key seed, murmur_hash2_64 key seed)

/-- Threshold T = uint64_t(constants::a * static_cast<double>(UINT64_MAX))
with a = 0.6 (src/include/utils/bucketers.hpp line 168).  In IEEE double
arithmetic 0.6 rounds to 5404319552844595/2^53, double(UINT64_MAX) rounds
to 2^64, and their product 5404319552844595 * 2^11 is exact. -/
def skewThreshold : Nat := 11068046444225730560

/-- Skew bucketer state (src/include/utils/bucketers.hpp lines 149-253).
After init with both bucket counts positive, the reciprocal fields hold
computeM_u64 of the corresponding count (init itself computes the counts
with double arithmetic and is exercised only at build time, outside the
query core). -/
structure skew_bucketer where
  m_num_dense_buckets : Nat
  m_num_sparse_buckets : Nat
  m_M_num_dense_buckets : Nat
  m_M_num_sparse_buckets : Nat

/-- skew_bucketer::bucket
(src/include/utils/bucketers.hpp lines 166-194). -/
def skew_bucketer.bucket (b : skew_bucketer) (hash : Nat) : Nat :=
  if hash < skewThreshold then
    fastmod_u64 hash b.m_M_num_dense_buckets b.m_num_dense_buckets
  else
    b.m_num_dense_buckets +
      fastmod_u64 hash b.m_M_num_sparse_buckets b.m_num_sparse_buckets

/-- skew_bucketer::num_buckets
(src/include/utils/bucketers.hpp lines 196-198). -/
def skew_bucketer.num_buckets (b : skew_bucketer) : Nat :=
  b.m_num_dense_buckets + b.m_num_sparse_buckets

/-- single_phf state (src/include/single_phf.hpp), with
Search = xor_displacement and Minimal = true.  The pilot encoder is
abstracted to its access function (the encoder headers are not under
src/; spec section 4.5 specifies only pilots.access). -/
structure single_phf where
  m_seed : Nat
  m_num_keys : Nat
  m_table_size : Nat
  m_M_128 : Nat
  m_M_64 : Nat
  m_bucketer : skew_bucketer
  m_pilots : Nat → Nat
  m_free_slots : elias_fano

/-- single_phf::position (src/include/single_phf.hpp lines 102-213),
xor_displacement and Minimal = true. -/
def single_phf.position (f : single_phf) (h1 h2 : Nat) : Nat :=
  let bucket_id := f.m_bucketer.bucket h1
  let pilot := f.m_pilots bucket_id
  let hashed_pilot := default_hash64 pilot f.m_seed
  let p := fastmod_u64 (h2 ^^^ hashed_pilot) f.m_M_128 f.m_table_size
  if p < f.m_num_keys then p
  else f.m_free_slots.access (p - f.m_num_keys)

/-- single_phf::position_raw (src/include/single_phf.hpp lines 275-291),
xor_displacement branch. -/
def single_phf.position_raw (f : single_phf) (h1 h2 : Nat) : Nat :=
  fastmod_u64 (h2 ^^^ default_hash64 (f.m_pilots (f.m_bucketer.bucket h1)) f.m_seed)
    f.m_M_128 f.m_table_size

/-- single_phf::operator() (src/include/single_phf.hpp lines 74-100):
hash the key with the stored seed and delegate to position. -/
def single_phf.lookup (f : single_phf) (key : Nat) : Nat :=
  let hash := hash128_of_key key f.m_seed
  f.position hash.1 hash.2

/-- Byte stream of essentials::save_pod for an nbytes-wide integer.
Modelled from the spec: save_pod writes the raw object bytes
(src/external/bits/external/essentials/include/essentials.hpp lines
120-124) and spec section 9 fixes the little-endian host, so byte k of
the stream is (v >> 8k) & 255. -/
def podBytes (nbytes v : Nat) : List Nat :=
  (List.range nbytes).map (fun k => v >>> (8 * k) % 256)

/-- Serialization of a u64 field (generic_saver::visit on uint64_t). -/
def saveU64 (v : Nat) : List Nat :=
  podBytes 8 v

/-- Serialization of a u128 field (generic_saver::visit on __uint128_t,
src/external/bits/external/essentials/include/essentials.hpp lines
347-402: a single save_pod of the 16-byte value). -/
def saveU128 (v : Nat) : List Nat :=
  podBytes 16 v

/-- The raw table position of a key: single_phf::position_raw applied to
the hash pair of the key, as operator() computes it. -/
def single_phf.rawOf (f : single_phf) (key : Nat) : Nat :=
  f.position_raw (hash128_of_key key f.m_seed).1 (hash128_of_key key f.m_seed).2

/-- Concrete minimal PHF used as a witness: seed 0, two keys, table size 2,
constant pilot 0, no free slots. -/
def phfExample : single_phf :=
  ⟨0, 2, 2, computeM_u64 2, 0, ⟨1, 1, computeM_u64 1, computeM_u64 1⟩,
    fun _ => 0, elias_fano.init⟩

/-- Concrete skew bucketer used as a witness: 137 dense and 322 sparse
buckets with their Barrett reciprocals. -/
def bucketerExample : skew_bucketer :=
  ⟨137, 322, computeM_u64 137, computeM_u64 322⟩

/-- A full super-block of 1024 positions whose span is exactly
2^16 = 65536 bits: positions 0..1022 and 65536. -/
def spanBlockExample : List Nat :=
  List.range 1023 ++ [65536]

/-- A full super-block of 1024 positions whose span is 1023 bits. -/
def denseBlockExample : List Nat :=
  List.range 1024

/-- Number of set stream bits in the half-open range [a, b). -/
def cntIn (words : List Nat) (a b : Nat) : Nat :=
  ((List.range' a (b - a)).filter (fun p => bitAt words p)).length

/-- Chunked reformulation of the darray build loop: flush the position
stream in blocks of 1024 plus a final partial block.  Proved equal to
darrayBuildLoop below; used only in proofs. -/
def processChunks (xs : List Nat) (st : List Int × List Nat × List Nat) :
    List Int × List Nat × List Nat :=
  if xs = [] then st
  else if xs.length < 1024 then flush_cur_block xs st.1 st.2.1 st.2.2
  else processChunks (xs.drop 1024) (flush_cur_block (xs.take 1024) st.1 st.2.1 st.2.2)
termination_by xs.length
decreasing_by
  simp only [List.length_drop]
  omega

end PTHashVerify

namespace PTHashVerify

theorem computeM_u64_eq (d : Nat) (hd : 2 ≤ d) :
    computeM_u64 d = 2 ^ 128 / d + 1 := by
  unfold computeM_u64
  apply Nat.mod_eq_of_lt
  have h1 : 2 ^ 128 / d ≤ 2 ^ 128 / 2 := Nat.div_le_div_left hd (by norm_num)
  have h2 : 2 ^ 128 / 2 + 1 < 2 ^ 128 := by norm_num
  omega

theorem barrett_M_mul_d (d : Nat) (hd2 : 2 ≤ d) :
    (2 ^ 128 / d + 1) * d = 2 ^ 128 + (d - 2 ^ 128 % d) := by
  have hdm : 2 ^ 128 / d * d + 2 ^ 128 % d = 2 ^ 128 := Nat.div_add_mod' _ _
  have hmod : 2 ^ 128 % d < d := Nat.mod_lt _ (by omega)
  have hexp : (2 ^ 128 / d + 1) * d = 2 ^ 128 / d * d + d := by ring
  omega

theorem fastmod_mul_div_eq (a d : Nat) (ha : a < 2 ^ 64) (hd2 : 2 ≤ d)
    (hd : d < 2 ^ 64) :
    (2 ^ 128 / d + 1) * a / 2 ^ 128 = a / d := by
  have hd0 : 0 < d := by omega
  have hMd := barrett_M_mul_d d hd2
  have hmod : 2 ^ 128 % d < d := Nat.mod_lt _ hd0
  have hqs : d * (a / d) + a % d = a := Nat.div_add_mod a d
  have hslt : a % d < d := Nat.mod_lt _ hd0
  have hea : (d - 2 ^ 128 % d) * a < 2 ^ 128 := by
    have h1 : (d - 2 ^ 128 % d) * a ≤ d * a := Nat.mul_le_mul_right a (by omega)
    have h2 : d * a < 2 ^ 64 * 2 ^ 64 := Nat.mul_lt_mul'' hd ha
    have h3 : (2 : Nat) ^ 64 * 2 ^ 64 = 2 ^ 128 := by norm_num
    omega
  apply Nat.div_eq_of_lt_le
  · -- a / d * 2 ^ 128 ≤ (2 ^ 128 / d + 1) * a
    have h1 : a / d * 2 ^ 128 * d ≤ (2 ^ 128 / d + 1) * a * d := by
      have hx : (2 ^ 128 / d + 1) * a * d = 2 ^ 128 * a + (d - 2 ^ 128 % d) * a := by
        calc (2 ^ 128 / d + 1) * a * d = (2 ^ 128 / d + 1) * d * a := by ring
          _ = (2 ^ 128 + (d - 2 ^ 128 % d)) * a := by rw [hMd]
          _ = 2 ^ 128 * a + (d - 2 ^ 128 % d) * a := by ring
      have hy : a / d * 2 ^ 128 * d = 2 ^ 128 * (d * (a / d)) := by ring
      have hz : 2 ^ 128 * (d * (a / d)) ≤ 2 ^ 128 * a :=
        Nat.mul_le_mul_left _ (by omega)
      omega
    exact Nat.le_of_mul_le_mul_right h1 hd0
  · -- (2 ^ 128 / d + 1) * a < (a / d + 1) * 2 ^ 128
    have h1 : (2 ^ 128 / d + 1) * a * d < (a / d + 1) * 2 ^ 128 * d := by
      have hx : (2 ^ 128 / d + 1) * a * d = 2 ^ 128 * a + (d - 2 ^ 128 % d) * a := by
        calc (2 ^ 128 / d + 1) * a * d = (2 ^ 128 / d + 1) * d * a := by ring
          _ = (2 ^ 128 + (d - 2 ^ 128 % d)) * a := by rw [hMd]
          _ = 2 ^ 128 * a + (d - 2 ^ 128 % d) * a := by ring
      have hy : 2 ^ 128 * a = 2 ^ 128 * (d * (a / d)) + 2 ^ 128 * (a % d) := by
        conv_lhs => rw [← hqs]
        ring
      have hz : (a / d + 1) * 2 ^ 128 * d
          = 2 ^ 128 * (d * (a / d)) + 2 ^ 128 * d := by ring
      have hw : 2 ^ 128 * (a % d) + 2 ^ 128 ≤ 2 ^ 128 * d := by
        have : 2 ^ 128 * (a % d) + 2 ^ 128 = 2 ^ 128 * (a % d + 1) := by ring
        rw [this]
        exact Nat.mul_le_mul_left _ (by omega)
      omega
    exact Nat.lt_of_mul_lt_mul_right h1

theorem mul128_u64_split (L d : Nat) (hL : L < 2 ^ 128) (hd : d < 2 ^ 64) :
    (L % 2 ^ 64 * d / 2 ^ 64 + L / 2 ^ 64 * d) % 2 ^ 128 / 2 ^ 64 % 2 ^ 64
      = L * d / 2 ^ 128 := by
  have hLm : L % 2 ^ 64 < 2 ^ 64 := Nat.mod_lt _ (by norm_num)
  have hLd64 : L / 2 ^ 64 < 2 ^ 64 := by
    apply Nat.div_lt_of_lt_mul
    have : (2 : Nat) ^ 64 * 2 ^ 64 = 2 ^ 128 := by norm_num
    omega
  have hB : L % 2 ^ 64 * d / 2 ^ 64 < 2 ^ 64 := by
    apply Nat.div_lt_of_lt_mul
    exact Nat.mul_lt_mul'' hLm hd
  have hT : L / 2 ^ 64 * d ≤ (2 ^ 64 - 1) * (2 ^ 64 - 1) :=
    Nat.mul_le_mul (by omega) (by omega)
  have hsum : L % 2 ^ 64 * d / 2 ^ 64 + L / 2 ^ 64 * d < 2 ^ 128 := by
    have hexp : ((2 : Nat) ^ 64 - 1) * (2 ^ 64 - 1) = 2 ^ 128 - 2 ^ 65 + 1 := by norm_num
    have h65 : (2 : Nat) ^ 65 = 2 ^ 64 + 2 ^ 64 := by norm_num
    have h128 : (2 : Nat) ^ 64 < 2 ^ 128 := by norm_num
    omega
  rw [Nat.mod_eq_of_lt hsum]
  have h1 : 2 ^ 64 * (L % 2 ^ 64 * d / 2 ^ 64) + L % 2 ^ 64 * d % 2 ^ 64
      = L % 2 ^ 64 * d := Nat.div_add_mod _ _
  have h2 : 2 ^ 64 * (L / 2 ^ 64) + L % 2 ^ 64 = L := Nat.div_add_mod _ _
  have h3 : L * d = 2 ^ 64 * (L / 2 ^ 64) * d + L % 2 ^ 64 * d := by
    conv_lhs => rw [← h2]
    ring
  have h4 : L * d = 2 ^ 64 * (L % 2 ^ 64 * d / 2 ^ 64 + L / 2 ^ 64 * d)
      + L % 2 ^ 64 * d % 2 ^ 64 := by
    have hx : 2 ^ 64 * (L / 2 ^ 64) * d = 2 ^ 64 * (L / 2 ^ 64 * d) := by ring
    omega
  have hrem : L % 2 ^ 64 * d % 2 ^ 64 < 2 ^ 64 := Nat.mod_lt _ (by norm_num)
  have hdivLd : L * d / 2 ^ 128
      = (L % 2 ^ 64 * d / 2 ^ 64 + L / 2 ^ 64 * d) / 2 ^ 64 := by
    conv_lhs => rw [h4]
    rw [show (2 : Nat) ^ 128 = 2 ^ 64 * 2 ^ 64 by norm_num, ← Nat.div_div_eq_div_mul,
      Nat.mul_add_div (by positivity), Nat.div_eq_of_lt hrem, Nat.add_zero]
  rw [← hdivLd]
  apply Nat.mod_eq_of_lt
  apply Nat.div_lt_of_lt_mul
  calc L * d < 2 ^ 128 * 2 ^ 64 := Nat.mul_lt_mul'' hL hd
    _ = 2 ^ 128 * 2 ^ 64 := rfl

/-- Claim C3: Barrett fastmod computes the exact remainder:
for every a in [0, 2^64) and d in [1, 2^64),
fastmod_u64(a, computeM_u64(d), d) = a mod d. -/
theorem fastmod_u64_correct (a d : Nat) (ha : a < 2 ^ 64) (hd1 : 1 ≤ d)
    (hd : d < 2 ^ 64) :
    fastmod_u64 a (computeM_u64 d) d = a % d := by
  rcases Nat.lt_or_ge d 2 with hd2 | hd2
  · -- d = 1
    have hd' : d = 1 := by omega
    subst hd'
    have hM : computeM_u64 1 = 1 := by norm_num [computeM_u64]
    rw [hM]
    unfold fastmod_u64
    simp only [one_mul, mul_one]
    have h1 : a % 2 ^ 128 = a := Nat.mod_eq_of_lt (by
      have : (2 : Nat) ^ 64 < 2 ^ 128 := by norm_num
      omega)
    have h3 : a / 2 ^ 64 = 0 := Nat.div_eq_of_lt ha
    rw [h1, Nat.mod_eq_of_lt ha, h3]
    simp [Nat.mod_one]
  · -- d ≥ 2
    have hd0 : 0 < d := by omega
    rw [computeM_u64_eq d hd2]
    have hdiv : (2 ^ 128 / d + 1) * a / 2 ^ 128 = a / d :=
      fastmod_mul_div_eq a d ha hd2 hd
    have hMd := barrett_M_mul_d d hd2
    have hmod : 2 ^ 128 % d < d := Nat.mod_lt _ hd0
    have hqs : d * (a / d) + a % d = a := Nat.div_add_mod a d
    have hslt : a % d < d := Nat.mod_lt _ hd0
    have hea : (d - 2 ^ 128 % d) * a < 2 ^ 128 := by
      have h1 : (d - 2 ^ 128 % d) * a ≤ d * a := Nat.mul_le_mul_right a (by omega)
      have h2 : d * a < 2 ^ 64 * 2 ^ 64 := Nat.mul_lt_mul'' hd ha
      have h3 : (2 : Nat) ^ 64 * 2 ^ 64 = 2 ^ 128 := by norm_num
      omega
    have hsplit : 2 ^ 128 * (a / d) + (2 ^ 128 / d + 1) * a % 2 ^ 128
        = (2 ^ 128 / d + 1) * a := by
      have := Nat.div_add_mod ((2 ^ 128 / d + 1) * a) (2 ^ 128)
      rw [hdiv] at this
      exact this
    have hLd : (2 ^ 128 / d + 1) * a % 2 ^ 128 * d
        = 2 ^ 128 * (a % d) + (d - 2 ^ 128 % d) * a := by
      have h1 : (2 ^ 128 / d + 1) * a * d
          = 2 ^ 128 * (a / d) * d + (2 ^ 128 / d + 1) * a % 2 ^ 128 * d := by
        conv_lhs => rw [← hsplit]
        ring
      have h2 : (2 ^ 128 / d + 1) * a * d
          = 2 ^ 128 * a + (d - 2 ^ 128 % d) * a := by
        calc (2 ^ 128 / d + 1) * a * d = (2 ^ 128 / d + 1) * d * a := by ring
          _ = (2 ^ 128 + (d - 2 ^ 128 % d)) * a := by rw [hMd]
          _ = 2 ^ 128 * a + (d - 2 ^ 128 % d) * a := by ring
      have h3 : 2 ^ 128 * a = 2 ^ 128 * (d * (a / d)) + 2 ^ 128 * (a % d) := by
        conv_lhs => rw [← hqs]
        ring
      have h4 : 2 ^ 128 * (a / d) * d = 2 ^ 128 * (d * (a / d)) := by ring
      omega
    have hLlt : (2 ^ 128 / d + 1) * a % 2 ^ 128 < 2 ^ 128 :=
      Nat.mod_lt _ (by norm_num)
    have hLdN : (2 ^ 128 / d + 1) * a % 2 ^ 128 * d / 2 ^ 128 = a % d := by
      apply Nat.div_eq_of_lt_le
      · have h1 : a % d * 2 ^ 128 = 2 ^ 128 * (a % d) := by ring
        omega
      · have h1 : (a % d + 1) * 2 ^ 128 = 2 ^ 128 * (a % d) + 2 ^ 128 := by ring
        omega
    unfold fastmod_u64
    simp only
    rw [mul128_u64_split _ d hLlt hd, hLdN]

/-- Witness for C3: Scenario A from the spec.  a = 10978613219408062656,
d = 137, and computeM_u64 137 has limbs (134647766961383588, 8078866017683015307);
the result is 90 = a mod 137. -/
theorem fastmod_u64_correct_witness :
    (10978613219408062656 < 2 ^ 64 ∧ 1 ≤ 137 ∧ 137 < 2 ^ 64) ∧
    computeM_u64 137 = 134647766961383588 * 2 ^ 64 + 8078866017683015307 ∧
    fastmod_u64 10978613219408062656 (computeM_u64 137) 137 = 90 := by
  refine ⟨⟨by norm_num, by norm_num, by norm_num⟩, by decide, ?_⟩
  have h := fastmod_u64_correct 10978613219408062656 137 (by norm_num) (by norm_num)
    (by norm_num)
  rw [h]

end PTHashVerify

namespace PTHashVerify

/-- Claim C9: for a skew_bucketer whose two bucket counts are both at
least 1 (with the Barrett reciprocals init computes for them), every
64-bit hash is mapped into [0, num_buckets()): the dense branch returns
a value below num_dense and the sparse branch returns num_dense plus a
value below num_sparse. -/
theorem skew_bucketer_bucket_range (b : skew_bucketer) (h : Nat)
    (hh : h < 2 ^ 64)
    (hd1 : 1 ≤ b.m_num_dense_buckets) (hs1 : 1 ≤ b.m_num_sparse_buckets)
    (hd64 : b.m_num_dense_buckets < 2 ^ 64)
    (hs64 : b.m_num_sparse_buckets < 2 ^ 64)
    (hMd : b.m_M_num_dense_buckets = computeM_u64 b.m_num_dense_buckets)
    (hMs : b.m_M_num_sparse_buckets = computeM_u64 b.m_num_sparse_buckets) :
    b.bucket h < b.num_buckets ∧
    (h < skewThreshold → b.bucket h < b.m_num_dense_buckets) ∧
    (¬ h < skewThreshold →
      b.m_num_dense_buckets ≤ b.bucket h ∧
      b.bucket h - b.m_num_dense_buckets < b.m_num_sparse_buckets) := by
  have hdm := fastmod_u64_correct h b.m_num_dense_buckets hh hd1 hd64
  have hsm := fastmod_u64_correct h b.m_num_sparse_buckets hh hs1 hs64
  have hdlt : h % b.m_num_dense_buckets < b.m_num_dense_buckets :=
    Nat.mod_lt _ (by omega)
  have hslt : h % b.m_num_sparse_buckets < b.m_num_sparse_buckets :=
    Nat.mod_lt _ (by omega)
  by_cases hcase : h < skewThreshold
  · simp only [skew_bucketer.bucket, skew_bucketer.num_buckets, if_pos hcase,
      hMd, hMs, hdm]
    exact ⟨by omega, fun _ => by omega, fun hc => absurd hcase hc⟩
  · simp only [skew_bucketer.bucket, skew_bucketer.num_buckets, if_neg hcase,
      hMd, hMs, hsm]
    exact ⟨by omega, fun hc => absurd hc hcase, fun _ => ⟨by omega, by omega⟩⟩

/-- Witness for C9 at the bucketer with 137 dense and 322 sparse buckets
and the sparse-branch hash of spec Scenario B. -/
theorem skew_bucketer_bucket_range_witness :
    bucketerExample.bucket 18424673762719242200 < bucketerExample.num_buckets ∧
    bucketerExample.bucket 18424673762719242200 = 137 + 28 :=
  ⟨(skew_bucketer_bucket_range bucketerExample 18424673762719242200
      (by norm_num) (by norm_num [bucketerExample]) (by norm_num [bucketerExample])
      (by norm_num [bucketerExample]) (by norm_num [bucketerExample])
      rfl rfl).1,
    by decide⟩

/-- Helper: operator() agrees with the free-slot remap of position_raw. -/
theorem lookup_eq_rawOf_remap (f : single_phf) (key : Nat) :
    f.lookup key =
      if f.rawOf key < f.m_num_keys then f.rawOf key
      else f.m_free_slots.access (f.rawOf key - f.m_num_keys) :=
  rfl

/-- Claim C2: with Search = xor_displacement and Minimal = true, lookup
computes exactly (h1,h2) = hash(key, seed); b = bucket(h1);
pilot = pilots.access(b);
p = fastmod_u64(h2 xor default_hash64(pilot, seed), M_128, table_size);
returning free_slots.access(p - num_keys) when p >= num_keys, else p. -/
theorem lookup_eq_pipeline (f : single_phf) (key : Nat) :
    f.lookup key =
      (let hpair := hash128_of_key key f.m_seed
       let b := f.m_bucketer.bucket hpair.1
       let pilot := f.m_pilots b
       let p := fastmod_u64 (hpair.2 ^^^ default_hash64 pilot f.m_seed)
         f.m_M_128 f.m_table_size
       if f.m_num_keys ≤ p then f.m_free_slots.access (p - f.m_num_keys)
       else p) := by
  unfold single_phf.lookup single_phf.position
  simp only
  by_cases hp : fastmod_u64
      ((hash128_of_key key f.m_seed).2 ^^^
        default_hash64
          (f.m_pilots (f.m_bucketer.bucket (hash128_of_key key f.m_seed).1))
          f.m_seed)
      f.m_M_128 f.m_table_size < f.m_num_keys
  · rw [if_pos hp, if_neg (by omega)]
  · rw [if_neg hp, if_pos (by omega)]

/-- Claim C1: over a key set K of size num_keys for which the builder has
produced a valid minimal PHF (raw positions injective on K, and the
free-slot remap sending overflow positions injectively into fresh slots
below num_keys, which is what the out-of-src construction guarantees),
lookup restricted to K is a bijection onto {0, ..., num_keys-1}. -/
theorem lookup_bijection_on_keys (f : single_phf) (K : Finset Nat)
    (hcard : K.card = f.m_num_keys)
    (hraw_inj : ∀ x ∈ K, ∀ y ∈ K, f.rawOf x = f.rawOf y → x = y)
    (hfree_lt : ∀ x ∈ K, f.m_num_keys ≤ f.rawOf x →
      f.m_free_slots.access (f.rawOf x - f.m_num_keys) < f.m_num_keys)
    (hfree_fresh : ∀ x ∈ K, ∀ y ∈ K, f.m_num_keys ≤ f.rawOf x →
      f.rawOf y < f.m_num_keys →
      f.m_free_slots.access (f.rawOf x - f.m_num_keys) ≠ f.rawOf y)
    (hfree_inj : ∀ x ∈ K, ∀ y ∈ K, f.m_num_keys ≤ f.rawOf x →
      f.m_num_keys ≤ f.rawOf y →
      f.m_free_slots.access (f.rawOf x - f.m_num_keys)
        = f.m_free_slots.access (f.rawOf y - f.m_num_keys) →
      f.rawOf x = f.rawOf y) :
    (∀ x ∈ K, f.lookup x < f.m_num_keys) ∧
    (∀ x ∈ K, ∀ y ∈ K, x ≠ y → f.lookup x ≠ f.lookup y) ∧
    K.image f.lookup = Finset.range f.m_num_keys := by
  have hrange : ∀ x ∈ K, f.lookup x < f.m_num_keys := by
    intro x hx
    rw [lookup_eq_rawOf_remap]
    split
    · assumption
    · exact hfree_lt x hx (by omega)
  have hinj : ∀ x ∈ K, ∀ y ∈ K, x ≠ y → f.lookup x ≠ f.lookup y := by
    intro x hx y hy hxy hl
    rw [lookup_eq_rawOf_remap, lookup_eq_rawOf_remap] at hl
    by_cases hx' : f.rawOf x < f.m_num_keys <;>
      by_cases hy' : f.rawOf y < f.m_num_keys
    · rw [if_pos hx', if_pos hy'] at hl
      exact hxy (hraw_inj x hx y hy hl)
    · rw [if_pos hx', if_neg hy'] at hl
      exact hfree_fresh y hy x hx (by omega) hx' hl.symm
    · rw [if_neg hx', if_pos hy'] at hl
      exact hfree_fresh x hx y hy (by omega) hy' hl
    · rw [if_neg hx', if_neg hy'] at hl
      exact hxy (hraw_inj x hx y hy
        (hfree_inj x hx y hy (by omega) (by omega) hl))
  refine ⟨hrange, hinj, ?_⟩
  have hsub : K.image f.lookup ⊆ Finset.range f.m_num_keys := by
    intro v hv
    rcases Finset.mem_image.mp hv with ⟨x, hx, rfl⟩
    exact Finset.mem_range.mpr (hrange x hx)
  have hcardim : (K.image f.lookup).card = K.card := by
    apply Finset.card_image_of_injOn
    intro x hx y hy hxy
    by_contra hne
    exact hinj x hx y hy hne hxy
  apply Finset.eq_of_subset_of_card_le hsub
  rw [hcardim, hcard, Finset.card_range]

set_option maxRecDepth 40000 in
/-- Witness for C1: the two-key PHF phfExample maps the key set {0, 1}
bijectively onto {0, 1}. -/
theorem lookup_bijection_on_keys_witness :
    ({0, 1} : Finset Nat).card = phfExample.m_num_keys ∧
    ({0, 1} : Finset Nat).image phfExample.lookup
      = Finset.range phfExample.m_num_keys :=
  ⟨by decide,
    (lookup_bijection_on_keys phfExample {0, 1} (by decide) (by decide)
      (by decide) (by decide) (by decide)).2.2⟩

/-- Claim C7 counterexample: the 16 bytes that generic_saver::visit
writes for the u128 value 2^64 (high limb 1, low limb 0) do not start
with the high limb: the stream is low limb first. -/
theorem saveU128_not_high_first :
    saveU128 (2 ^ 64) ≠ saveU64 (2 ^ 64 >>> 64) ++ saveU64 (2 ^ 64 % 2 ^ 64) := by
  decide

/-- Claim C7 amended: every u128 field is written as two u64 limbs with
the LOW limb (bits 63..0) first in the stream followed by the high limb,
so the mathematical value is (high << 64) | low with low read before
high. -/
theorem saveU128_low_limb_first (v : Nat) :
    saveU128 v = saveU64 (v % 2 ^ 64) ++ saveU64 (v >>> 64 % 2 ^ 64) := by
  simp only [saveU128, saveU64, podBytes, Nat.shiftRight_eq_div_pow]
  norm_num [List.range_succ]
  omega

set_option maxRecDepth 40000 in
/-- Claim C6 counterexample: a flushed super-block of 1024 positions with
span exactly 65536 bits (which does not exceed L2 = 65536) is stored
sparse: the block_inventory entry is negative and all positions are
appended to overflow_positions. -/
theorem flush_span_eq_L2_goes_sparse :
    spanBlockExample.length = 1024 ∧
    spanBlockExample.getLastD 0 - spanBlockExample.headD 0 = 2 ^ 16 ∧
    (flush_cur_block spanBlockExample [] [] []).1 = [-1] ∧
    (flush_cur_block spanBlockExample [] [] []).2.2 = spanBlockExample := by
  refine ⟨by decide, by decide, by decide, by decide⟩

/-- Claim C6 amended: a flushed super-block is stored sparse (negative
block_inventory entry, positions appended verbatim to overflow_positions)
exactly when its span positions[last] - positions[0] is AT LEAST
L2 = 65536 bits; when the span is strictly below 65536 it is stored dense
(block_inventory gets positions[0] and overflow_positions is untouched). -/
theorem flush_cur_block_policy (cur : List Nat) (bi : List Int)
    (sbi ovf : List Nat) :
    (2 ^ 16 ≤ cur.getLastD 0 - cur.headD 0 →
      (flush_cur_block cur bi sbi ovf).1 = bi ++ [-(Int.ofNat ovf.length) - 1] ∧
      (flush_cur_block cur bi sbi ovf).2.2 = ovf ++ cur) ∧
    (cur.getLastD 0 - cur.headD 0 < 2 ^ 16 →
      (flush_cur_block cur bi sbi ovf).1 = bi ++ [Int.ofNat (cur.headD 0)] ∧
      (flush_cur_block cur bi sbi ovf).2.2 = ovf) := by
  unfold flush_cur_block
  split
  · rename_i hlt
    exact ⟨fun hge => by omega, fun _ => ⟨rfl, rfl⟩⟩
  · rename_i hge
    exact ⟨fun _ => ⟨rfl, rfl⟩, fun hlt => by omega⟩

set_option maxRecDepth 40000 in
/-- Witness for the amended C6 at a concrete dense block of 1024
positions spanning 1023 bits. -/
theorem flush_cur_block_policy_witness :
    (flush_cur_block denseBlockExample [] [] []).1
      = [] ++ [Int.ofNat (denseBlockExample.headD 0)] ∧
    (flush_cur_block denseBlockExample [] [] []).2.2 = [] :=
  (flush_cur_block_policy denseBlockExample [] [] []).2 (by decide)

end PTHashVerify

namespace PTHashVerify

/-- The encode loop fails with notSorted exactly when some element of the
remaining input is below its predecessor (the element before position 0
being the accumulator last, checked only when the global index is
positive). -/
theorem efEncodeLoop_error_iff (l m : Nat) (hb : bit_vector) (lb : cv_builder)
    (i last : Nat) (xs : List Nat) :
    efEncodeLoop l m hb lb i last xs = .error .notSorted ↔
      ∃ j, j < xs.length ∧ 0 < i + j ∧
        xs.getD j 0 < (if j = 0 then last else xs.getD (j - 1) 0) := by
  induction xs generalizing hb lb i last with
  | nil => simp [efEncodeLoop]
  | cons v rest ih =>
    rw [efEncodeLoop]
    by_cases hc : 0 < i ∧ v < last
    · rw [if_pos hc]
      refine iff_of_true rfl ⟨0, by simp, by simpa using hc.1, by simpa using hc.2⟩
    · rw [if_neg hc]
      rw [ih]
      constructor
      · rintro ⟨j, hj, hij, hlt⟩
        refine ⟨j + 1, by simp [Nat.succ_lt_succ hj], by omega, ?_⟩
        simp only [Nat.add_sub_cancel, List.getD_cons_succ]
        cases j with
        | zero => simpa using hlt
        | succ k => simpa using hlt
      · rintro ⟨j, hj, hij, hlt⟩
        cases j with
        | zero =>
          simp only [if_pos rfl, List.getD_cons_zero] at hlt
          exact absurd ⟨by simpa using hij, hlt⟩ hc
        | succ k =>
          refine ⟨k, by simpa using hj, by omega, ?_⟩
          simp only [Nat.add_sub_cancel, List.getD_cons_succ] at hlt
          cases k with
          | zero => simpa using hlt
          | succ k2 => simpa using hlt

/-- Claim C8: elias_fano::encode with encode_prefix_sum = false raises
NotSorted if and only if the input has a position i >= 1 with
s[i] < s[i-1]; and encode of an empty sequence raises nothing, returning
the valid empty structure with size() = 0 and back() = 0. -/
theorem ef_encode_not_sorted_iff (s : List Nat) (u : Nat) :
    (elias_fano.encode s u = .error .notSorted ↔
      ∃ i, 1 ≤ i ∧ i < s.length ∧ s.getD i 0 < s.getD (i - 1) 0) ∧
    (s = [] → elias_fano.encode s u = .ok elias_fano.init ∧
      elias_fano.init.size = 0 ∧ elias_fano.init.m_back = 0) := by
  constructor
  · rcases eq_or_ne s [] with rfl | hne
    · constructor
      · intro h
        simp [elias_fano.encode] at h
      · rintro ⟨i, hi1, hi2, _⟩
        simp only [List.length_nil] at hi2
        omega
    · have hlen : s.length ≠ 0 := by simpa [List.length_eq_zero] using hne
      have hall : ∀ l m hb lb,
          (efEncodeLoop l m hb lb 0 0 s = .error .notSorted ↔
            ∃ i, 1 ≤ i ∧ i < s.length ∧ s.getD i 0 < s.getD (i - 1) 0) := by
        intro l m hb lb
        rw [efEncodeLoop_error_iff]
        constructor
        · rintro ⟨j, hj, hij, hlt⟩
          rw [if_neg (by omega)] at hlt
          exact ⟨j, by omega, hj, hlt⟩
        · rintro ⟨i, hi1, hi2, hlt⟩
          exact ⟨i, hi2, by omega, by rw [if_neg (by omega)]; exact hlt⟩
      simp only [elias_fano.encode]
      rw [if_neg hlen]
      constructor
      · intro h
        split at h
        · rename_i e heq
          cases e
          exact (hall _ _ _ _).mp heq
        · exact Except.noConfusion h
      · intro hex
        split
        · rename_i e heq
          cases e
          rfl
        · rename_i val heq
          exact Except.noConfusion (((hall _ _ _ _).mpr hex).symm.trans heq)
  · rintro rfl
    exact ⟨by simp [elias_fano.encode], rfl, rfl⟩

/-- Witness for C8: a concrete non-sorted input errors, and the empty
input yields the empty structure. -/
theorem ef_encode_not_sorted_iff_witness :
    elias_fano.encode [5, 3] 0 = .error .notSorted ∧
    elias_fano.encode ([] : List Nat) 0 = .ok elias_fano.init :=
  ⟨(ef_encode_not_sorted_iff [5, 3] 0).1.mpr ⟨1, by decide, by decide, by decide⟩,
   ((ef_encode_not_sorted_iff [] 0).2 rfl).1⟩

end PTHashVerify

namespace PTHashVerify

theorem getD_set_same (l : List Nat) (idx val : Nat) (h : idx < l.length) :
    (l.set idx val).getD idx 0 = val := by
  simp [List.getD_eq_getElem?_getD, List.getElem?_set_self h]

theorem getD_set_other (l : List Nat) (idx idx' val : Nat) (h : idx ≠ idx') :
    (l.set idx val).getD idx' 0 = l.getD idx' 0 := by
  simp [List.getD_eq_getElem?_getD, List.getElem?_set_ne h]

theorem getD_lt_of_forall (data : List Nat) (hdata : ∀ x ∈ data, x < 2 ^ 64)
    (b : Nat) : data.getD b 0 < 2 ^ 64 := by
  rw [List.getD_eq_getElem?_getD]
  cases h : data[b]? with
  | none => norm_num
  | some x =>
    simp only [Option.getD_some]
    exact hdata x (List.getElem?_mem h)

theorem cvMask_testBit (w k : Nat) (hw : w ≤ 64) :
    (cvMask w).testBit k = decide (k < w) := by
  unfold cvMask
  split
  · rename_i h64
    subst h64
    rw [Nat.testBit_two_pow_sub_one]
  · rw [Nat.testBit_two_pow_sub_one]

theorem lt_pow_of_le_cvMask (v w : Nat) (hw : w ≤ 64) (hv : v ≤ cvMask w) :
    v < 2 ^ w := by
  unfold cvMask at hv
  split at hv
  · rename_i h64
    subst h64
    omega
  · have : 0 < 2 ^ w := Nat.pos_pow_of_pos w (by norm_num)
    omega

theorem testBit_false_of_lt_pow {v w t : Nat} (hv : v < 2 ^ w) (ht : w ≤ t) :
    v.testBit t = false :=
  Nat.testBit_lt_two_pow
    (lt_of_lt_of_le hv (Nat.pow_le_pow_right (by norm_num) ht))

/-- Bit r of the first word written by compact_vector::builder::set. -/
theorem set_word0_testBit (w d0 v sh r : Nat) (hw : w ≤ 64) (hr : r < 64)
    (hv : v < 2 ^ w) :
    (d0 &&& ((2 ^ 64 - 1) ^^^ cvMask w <<< sh % 2 ^ 64) ||| v <<< sh % 2 ^ 64).testBit r
      = (if sh ≤ r ∧ r - sh < w then v.testBit (r - sh) else d0.testBit r) := by
  simp only [Nat.testBit_or, Nat.testBit_and, Nat.testBit_xor, Nat.testBit_mod_two_pow,
    Nat.testBit_shiftLeft, cvMask_testBit _ _ hw, Nat.testBit_two_pow_sub_one]
  by_cases h1 : sh ≤ r
  · by_cases h2 : r - sh < w
    · simp [h1, h2, hr]
    · have hvb : v.testBit (r - sh) = false := testBit_false_of_lt_pow hv (by omega)
      simp [h1, h2, hr, hvb]
  · simp [h1, hr]

/-- Bit r of the second word written by compact_vector::builder::set. -/
theorem set_word1_testBit (w d1 v rs r : Nat) (hw : w ≤ 64) (hr : r < 64)
    (hv : v < 2 ^ w) :
    (d1 &&& ((2 ^ 64 - 1) ^^^ cvMask w >>> rs) ||| v >>> rs).testBit r
      = (if rs + r < w then v.testBit (rs + r) else d1.testBit r) := by
  simp only [Nat.testBit_or, Nat.testBit_and, Nat.testBit_xor, Nat.testBit_shiftRight,
    cvMask_testBit _ _ hw, Nat.testBit_two_pow_sub_one]
  by_cases h2 : rs + r < w
  · simp [h2, hr]
  · have hvb : v.testBit (rs + r) = false := testBit_false_of_lt_pow hv (by omega)
    simp [h2, hr, hvb]

/-- Effect of builder::set on the packed bit stream: exactly the bits of
the range [i*w, i*w + w) are replaced by the bits of v; all other stream
bits are untouched. -/
theorem cv_set_bitAt (n w i v back : Nat) (data : List Nat)
    (hw1 : 1 ≤ w) (hw : w ≤ 64)
    (hv : v < 2 ^ w)
    (hlen : i * w / 64 + 1 < data.length) :
    ∀ q, bitAt (cv_builder.set ⟨n, w, cvMask w, back, data⟩ i v).m_data q
      = (if i * w ≤ q ∧ q < i * w + w then v.testBit (q - i * w) else bitAt data q) := by
  intro q
  unfold cv_builder.set bitAt
  simp only
  have hsh : i * w % 64 < 64 := Nat.mod_lt _ (by norm_num)
  have hq64 : q % 64 < 64 := Nat.mod_lt _ (by norm_num)
  by_cases hsecond : 64 - i * w % 64 < w
  · rw [if_pos hsecond]
    by_cases hqb : q / 64 = i * w / 64
    · rw [getD_set_other _ _ _ _ (by omega), hqb,
        getD_set_same _ _ _ (by omega)]
      rw [set_word0_testBit w _ v (i * w % 64) (q % 64) hw hq64 hv]
      by_cases hin : i * w ≤ q ∧ q < i * w + w
      · rw [if_pos hin, if_pos (by omega)]
        congr 1
        omega
      · rw [if_neg hin, if_neg (by omega)]
    · by_cases hqb1 : q / 64 = i * w / 64 + 1
      · rw [hqb1, getD_set_same _ _ _ (by rw [List.length_set]; omega),
          getD_set_other _ _ _ _ (by omega)]
        rw [set_word1_testBit w _ v (64 - i * w % 64) (q % 64) hw hq64 hv]
        by_cases hin : i * w ≤ q ∧ q < i * w + w
        · rw [if_pos (by omega), if_pos hin]
          congr 1
          omega
        · rw [if_neg (by omega), if_neg hin]
      · rw [getD_set_other _ _ _ _ (by omega), getD_set_other _ _ _ _ (by omega)]
        rw [if_neg (by omega)]
  · rw [if_neg hsecond]
    by_cases hqb : q / 64 = i * w / 64
    · rw [hqb, getD_set_same _ _ _ (by omega)]
      rw [set_word0_testBit w _ v (i * w % 64) (q % 64) hw hq64 hv]
      by_cases hin : i * w ≤ q ∧ q < i * w + w
      · rw [if_pos hin, if_pos (by omega)]
        congr 1
        omega
      · rw [if_neg hin, if_neg (by omega)]
    · rw [getD_set_other _ _ _ _ (by omega)]
      rw [if_neg (by omega)]

/-- builder::set keeps every stored word below 2^64. -/
theorem cv_set_data_bound (n w i v back : Nat) (data : List Nat)
    (hw : w ≤ 64) (hdata : ∀ x ∈ data, x < 2 ^ 64) (hv : v < 2 ^ 64) :
    ∀ x ∈ (cv_builder.set ⟨n, w, cvMask w, back, data⟩ i v).m_data, x < 2 ^ 64 := by
  unfold cv_builder.set
  simp only
  have hw0 : ∀ (d0 : Nat),
      d0 &&& ((2 ^ 64 - 1) ^^^ cvMask w <<< (i * w % 64) % 2 ^ 64) |||
        v <<< (i * w % 64) % 2 ^ 64 < 2 ^ 64 := by
    intro d0
    apply Nat.or_lt_two_pow
    · apply Nat.and_lt_two_pow
      have h1 : (2 : Nat) ^ 64 - 1 < 2 ^ 64 := by norm_num
      have h2 : cvMask w <<< (i * w % 64) % 2 ^ 64 < 2 ^ 64 :=
        Nat.mod_lt _ (by norm_num)
      exact Nat.xor_lt_two_pow h1 h2
    · exact Nat.mod_lt _ (by norm_num)
  intro x hx
  split at hx
  · rcases List.mem_or_eq_of_mem_set hx with hx1 | rfl
    · rcases List.mem_or_eq_of_mem_set hx1 with hx2 | rfl
      · exact hdata x hx2
      · exact hw0 _
    · apply Nat.or_lt_two_pow
      · apply Nat.and_lt_two_pow
        apply Nat.xor_lt_two_pow (by norm_num)
        calc cvMask w >>> (64 - i * w % 64) ≤ cvMask w := by
              rw [Nat.shiftRight_eq_div_pow]
              exact Nat.div_le_self _ _
          _ < 2 ^ 64 := by
              have h1 : (2 : Nat) ^ w ≤ 2 ^ 64 := Nat.pow_le_pow_right (by norm_num) hw
              unfold cvMask
              split <;> omega
      · calc v >>> (64 - i * w % 64) ≤ v := by
              rw [Nat.shiftRight_eq_div_pow]
              exact Nat.div_le_self _ _
          _ < 2 ^ 64 := hv
  · rcases List.mem_or_eq_of_mem_set hx with hx1 | rfl
    · exact hdata x hx1
    · exact hw0 _

end PTHashVerify

namespace PTHashVerify

/-- Bit k of compact_vector::operator[] is stream bit i*w + k of the
packed data (and zero for k >= w). -/
theorem cv_read_testBit (n w : Nat) (data : List Nat) (j k : Nat)
    (hw1 : 1 ≤ w) (hw : w ≤ 64) (hdata : ∀ x ∈ data, x < 2 ^ 64) :
    (compact_vector.read ⟨n, w, cvMask w, data⟩ j).testBit k
      = (decide (k < w) && bitAt data (j * w + k)) := by
  have hword : ∀ b, data.getD b 0 < 2 ^ 64 := getD_lt_of_forall data hdata
  unfold compact_vector.read bitAt
  simp only
  have hsh : j * w % 64 < 64 := Nat.mod_lt _ (by norm_num)
  split
  · rename_i hsingle
    rw [Nat.testBit_and, Nat.testBit_shiftRight, cvMask_testBit _ _ hw]
    by_cases hkw : k < w
    · have hd : (j * w + k) / 64 = j * w / 64 := by omega
      have hm : (j * w + k) % 64 = j * w % 64 + k := by omega
      rw [hd, hm]
      simp [hkw]
    · simp [hkw]
  · rename_i hsplit2
    rw [Nat.testBit_or, Nat.testBit_and, Nat.testBit_shiftRight,
      Nat.testBit_mod_two_pow, Nat.testBit_shiftLeft, cvMask_testBit _ _ hw]
    by_cases hkw : k < w
    · by_cases hklow : j * w % 64 + k < 64
      · have hb2 : ¬ (64 - j * w % 64 ≤ k) := by omega
        have hd : (j * w + k) / 64 = j * w / 64 := by omega
        have hm : (j * w + k) % 64 = j * w % 64 + k := by omega
        rw [hd, hm]
        simp [hb2, hkw]
      · have h1 : (data.getD (j * w / 64) 0).testBit (j * w % 64 + k) = false :=
          testBit_false_of_lt_pow (hword _) (by omega)
        have hd : (j * w + k) / 64 = j * w / 64 + 1 := by omega
        have hm : (j * w + k) % 64 = k - (64 - j * w % 64) := by omega
        rw [hd, hm, h1]
        have hk64 : k < 64 := by omega
        simp [hkw, hk64, show 64 - j * w % 64 ≤ k by omega]
    · have h1 : (data.getD (j * w / 64) 0).testBit (j * w % 64 + k) = false :=
        testBit_false_of_lt_pow (hword _) (by omega)
      rw [h1]
      simp [hkw]

/-- Values produced by compact_vector::operator[] are below 2^64. -/
theorem cv_read_lt (n w : Nat) (data : List Nat) (j : Nat)
    (hw : w ≤ 64) (hdata : ∀ x ∈ data, x < 2 ^ 64) :
    compact_vector.read ⟨n, w, cvMask w, data⟩ j < 2 ^ 64 := by
  have hword : ∀ b, data.getD b 0 < 2 ^ 64 := getD_lt_of_forall data hdata
  unfold compact_vector.read
  simp only
  have hm64 : cvMask w < 2 ^ 64 := by
    have h1 : (2 : Nat) ^ w ≤ 2 ^ 64 := Nat.pow_le_pow_right (by norm_num) hw
    unfold cvMask
    split <;> omega
  split
  · exact Nat.and_lt_two_pow _ hm64
  · apply Nat.or_lt_two_pow
    · have h1 : data.getD (j * w / 64) 0 >>> (j * w % 64)
          ≤ data.getD (j * w / 64) 0 := by
        rw [Nat.shiftRight_eq_div_pow]
        exact Nat.div_le_self _ _
      exact lt_of_le_of_lt h1 (hword _)
    · exact Nat.and_lt_two_pow _ hm64

set_option maxRecDepth 40000 in
/-- Claim C10: for a compact_vector builder of size n and width
w in [1, 64], with i < n and v fitting in w bits (v <= mask), set(i, v)
makes a read of element i return v and leaves every element j /= i
unchanged.  data holds the builder words (of the size resize allocates,
including the spare word). -/
theorem cv_set_read_frame (n w i v back : Nat) (data : List Nat)
    (hw1 : 1 ≤ w) (hw : w ≤ 64)
    (hlen : data.length = words_for (n * w) + 1)
    (hdata : ∀ x ∈ data, x < 2 ^ 64)
    (hi : i < n) (hv : v ≤ cvMask w) :
    ∀ j, j < n →
      compact_vector.read
          ⟨n, w, cvMask w, (cv_builder.set ⟨n, w, cvMask w, back, data⟩ i v).m_data⟩ j
        = if j = i then v else compact_vector.read ⟨n, w, cvMask w, data⟩ j := by
  intro j hj
  have hv' : v < 2 ^ w := lt_pow_of_le_cvMask v w hw hv
  have hv64 : v < 2 ^ 64 :=
    lt_of_lt_of_le hv' (Nat.pow_le_pow_right (by norm_num) hw)
  have hiw : (i + 1) * w ≤ n * w := Nat.mul_le_mul_right w (by omega)
  have hiw' : (i + 1) * w = i * w + w := by ring
  have hlen2 : i * w / 64 + 1 < data.length := by
    unfold words_for at hlen
    omega
  have hS := cv_set_bitAt n w i v back data hw1 hw hv' hlen2
  have hbound := cv_set_data_bound n w i v back data hw hdata hv64
  by_cases hji : j = i
  · subst hji
    rw [if_pos rfl]
    apply Nat.eq_of_testBit_eq
    intro k
    rw [cv_read_testBit n w _ j k hw1 hw hbound, hS]
    by_cases hkw : k < w
    · rw [if_pos (by omega)]
      simp [hkw, Nat.add_sub_cancel_left]
    · have hvb : v.testBit k = false := testBit_false_of_lt_pow hv' (by omega)
      simp [hkw, hvb]
  · rw [if_neg hji]
    apply Nat.eq_of_testBit_eq
    intro k
    rw [cv_read_testBit n w _ j k hw1 hw hbound,
      cv_read_testBit n w data j k hw1 hw hdata]
    by_cases hkw : k < w
    · have hdisj : ¬ (i * w ≤ j * w + k ∧ j * w + k < i * w + w) := by
        rcases Nat.lt_or_ge j i with hji' | hji'
        · have h1 : (j + 1) * w ≤ i * w := Nat.mul_le_mul_right w (by omega)
          have h2 : (j + 1) * w = j * w + w := by ring
          omega
        · have hji'' : i < j := by omega
          have h1 : (i + 1) * w ≤ j * w := Nat.mul_le_mul_right w (by omega)
          have h2 : (i + 1) * w = i * w + w := by ring
          omega
      rw [hS, if_neg hdisj]
    · simp [hkw]

set_option maxRecDepth 40000 in
/-- Witness for C10: width 12, element 5 spans the bit range [60, 72)
across a word boundary; setting it to 3000 reads back 3000 and leaves
element 4 unchanged. -/
theorem cv_set_read_frame_witness :
    compact_vector.read
        ⟨10, 12, cvMask 12,
          (cv_builder.set ⟨10, 12, cvMask 12, 0, List.replicate 3 0⟩ 5 3000).m_data⟩ 5
      = 3000 ∧
    compact_vector.read
        ⟨10, 12, cvMask 12,
          (cv_builder.set ⟨10, 12, cvMask 12, 0, List.replicate 3 0⟩ 5 3000).m_data⟩ 4
      = compact_vector.read ⟨10, 12, cvMask 12, List.replicate 3 0⟩ 4 := by
  have h5 := cv_set_read_frame 10 12 5 3000 0 (List.replicate 3 0)
    (by norm_num) (by norm_num) (by decide) (by decide) (by norm_num) (by decide)
    5 (by norm_num)
  have h4 := cv_set_read_frame 10 12 5 3000 0 (List.replicate 3 0)
    (by norm_num) (by norm_num) (by decide) (by decide) (by norm_num) (by decide)
    4 (by norm_num)
  rw [if_pos rfl] at h5
  rw [if_neg (by norm_num)] at h4
  exact ⟨h5, h4⟩

end PTHashVerify

namespace PTHashVerify

theorem getD_pos (l : List Nat) (i : Nat) (h : i < l.length) :
    l.getD i 0 = l[i] := by
  rw [List.getD_eq_getElem?_getD, List.getElem?_eq_getElem h]
  rfl

theorem getD_drop (l : List Nat) (n m : Nat) :
    (l.drop n).getD m 0 = l.getD (n + m) 0 := by
  rw [List.getD_eq_getElem?_getD, List.getD_eq_getElem?_getD, List.getElem?_drop]

theorem getD_take (l : List Nat) (n m : Nat) (h : m < n) :
    (l.take n).getD m 0 = l.getD m 0 := by
  rw [List.getD_eq_getElem?_getD, List.getD_eq_getElem?_getD,
    List.getElem?_take_of_lt h]

theorem getD_append_sandwich {α : Type} (A C : List α) (t d : α) :
    (A ++ t :: C).getD A.length d = t := by
  rw [List.getD_append_right _ _ _ _ (le_refl _)]
  simp

theorem getD_map_range (f : Nat → Nat) (m k : Nat) (h : k < m) :
    ((List.range m).map f).getD k 0 = f k := by
  rw [getD_pos _ _ (by simpa using h)]
  simp

theorem bitPositions_sorted (words : List Nat) (numBits : Nat) :
    (bitPositions words numBits).Pairwise (· < ·) :=
  (List.pairwise_lt_range _).filter _

theorem mem_bitPositions (words : List Nat) (numBits : Nat) (p : Nat)
    (hnb : numBits ≤ 64 * words.length) :
    p ∈ bitPositions words numBits ↔ p < numBits ∧ bitAt words p := by
  unfold bitPositions
  rw [List.mem_filter, List.mem_range]
  constructor
  · rintro ⟨h1, h2⟩
    simpa using h2
  · rintro ⟨h1, h2⟩
    exact ⟨by omega, by simp [h1, h2]⟩

theorem bitPositions_strict (words : List Nat) (numBits : Nat) (i j : Nat)
    (hi : i < (bitPositions words numBits).length)
    (hj : j < (bitPositions words numBits).length) (hij : i < j) :
    (bitPositions words numBits)[i] < (bitPositions words numBits)[j] :=
  (List.pairwise_iff_getElem.mp (bitPositions_sorted words numBits)) i j hi hj hij

theorem cntIn_split (words : List Nat) (a b c : Nat) (h1 : a ≤ b) (h2 : b ≤ c) :
    cntIn words a c = cntIn words a b + cntIn words b c := by
  unfold cntIn
  rw [← List.countP_eq_length_filter, ← List.countP_eq_length_filter,
    ← List.countP_eq_length_filter]
  rw [show c - a = (c - b) + (b - a) by omega,
    ← List.range'_append_1 a (b - a) (c - b), List.countP_append,
    show a + (b - a) = b by omega]

theorem countP_masked_range (words : List Nat) (b s e : Nat)
    (hs : s ≤ e) (he : e ≤ 64) :
    ((List.range e).filter
      (fun j => (words.getD b 0 &&& (2 ^ 64 - 1) <<< s % 2 ^ 64).testBit j)).length
      = cntIn words (64 * b + s) (64 * b + e) := by
  unfold cntIn
  rw [← List.countP_eq_length_filter, ← List.countP_eq_length_filter]
  rw [show 64 * b + e - (64 * b + s) = e - s by omega]
  rw [List.range'_eq_map_range, List.countP_map]
  conv_lhs => rw [show e = s + (e - s) by omega]
  rw [List.range_add, List.countP_append, List.countP_map]
  have hz : List.countP
      (fun j => (words.getD b 0 &&& (2 ^ 64 - 1) <<< s % 2 ^ 64).testBit j)
      (List.range s) = 0 := by
    rw [List.countP_eq_zero]
    intro x hx
    rw [List.mem_range] at hx
    simp only [Nat.testBit_and, Nat.testBit_mod_two_pow, Nat.testBit_shiftLeft,
      Nat.testBit_two_pow_sub_one]
    simp [show ¬ s ≤ x by omega]
  rw [hz, Nat.zero_add]
  apply List.countP_congr
  intro x hx
  rw [List.mem_range] at hx
  simp only [Function.comp]
  have h1 : (64 * b + s + x) / 64 = b := by omega
  have h2 : (64 * b + s + x) % 64 = s + x := by omega
  unfold bitAt
  rw [h1, h2]
  simp only [Nat.testBit_and, Nat.testBit_mod_two_pow, Nat.testBit_shiftLeft,
    Nat.testBit_two_pow_sub_one]
  have h3 : s ≤ s + x := by omega
  have h4 : s + x < 64 := by omega
  have h5 : s + x - s < 64 := by omega
  simp [h3, h4, h5]
  exact fun _ => by omega

theorem and_highmask_zero (u : Nat) (hu : u < 2 ^ 64) :
    u &&& (2 ^ 64 - 1) <<< 0 % 2 ^ 64 = u := by
  have h1 : ((2 : Nat) ^ 64 - 1) <<< 0 % 2 ^ 64 = 2 ^ 64 - 1 := by
    rw [Nat.shiftLeft_zero]
    apply Nat.mod_eq_of_lt
    norm_num
  rw [h1, Nat.and_pow_two_sub_one_eq_mod, Nat.mod_eq_of_lt hu]

theorem popcount_eq_countP_range (u : Nat) :
    popcount u = ((List.range 64).filter (fun j => u.testBit j)).length := rfl

theorem select_in_word_eq (u t : Nat) (ht64 : t < 64) (hset : u.testBit t = true) :
    select_in_word u ((List.range t).filter (fun j => u.testBit j)).length = t := by
  unfold select_in_word
  have hsplit : List.range 64 = List.range t ++ (List.range (64 - t)).map (t + ·) := by
    rw [← List.range_add]
    congr 1
    omega
  rw [hsplit, List.filter_append]
  have h2 : (List.range (64 - t)).map (t + ·) = t :: List.range' (t + 1) (63 - t) := by
    rw [← List.range'_eq_map_range, show 64 - t = (63 - t) + 1 by omega,
      List.range'_succ]
  rw [h2, List.filter_cons_of_pos hset]
  exact getD_append_sandwich _ _ _ _

end PTHashVerify

namespace PTHashVerify

theorem cntIn_zero_eq (words : List Nat) (numBits x : Nat)
    (hnb : numBits ≤ 64 * words.length) (hx : x ≤ numBits) :
    cntIn words 0 x
      = ((bitPositions words numBits).filter (fun p => decide (p < x))).length := by
  unfold cntIn bitPositions
  rw [← List.countP_eq_length_filter, List.filter_filter,
    ← List.countP_eq_length_filter]
  rw [Nat.sub_zero, ← List.range_eq_range']
  rw [show 64 * words.length = x + (64 * words.length - x) by omega,
    List.range_add, List.countP_append, List.countP_map]
  have hz : List.countP
      ((fun a => decide (a < x) && (decide (a < numBits) && bitAt words a)) ∘
        fun y => x + y)
      (List.range (64 * words.length - x)) = 0 := by
    rw [List.countP_eq_zero]
    intro y hy
    simp only [Function.comp]
    simp [show ¬ x + y < x by omega]
  rw [hz, Nat.add_zero]
  apply List.countP_congr
  intro p hp
  rw [List.mem_range] at hp
  constructor
  · intro h
    simp [h, hp, show p < numBits by omega]
  · intro h
    simp only [Bool.and_eq_true, decide_eq_true_eq] at h
    exact h.2.2

theorem filter_lt_getElem_sorted (L : List Nat) (hL : L.Pairwise (· < ·))
    (i : Nat) (hi : i < L.length) :
    (L.filter (fun p => decide (p < L[i]))).length = i := by
  have hq : L.filter (fun p => decide (p < L[i]))
      = (L.take i ++ L.drop i).filter (fun p => decide (p < L[i])) := by
    rw [List.take_append_drop]
  rw [hq, List.filter_append]
  have hpw := List.pairwise_iff_getElem.mp hL
  have h1 : (L.take i).filter (fun p => decide (p < L[i])) = L.take i := by
    rw [List.filter_eq_self]
    intro x hx
    rcases List.getElem_of_mem hx with ⟨m, hm, rfl⟩
    have hmi : m < i := by
      have := hm
      rw [List.length_take] at this
      omega
    rw [List.getElem_take]
    simpa using hpw m i (by omega) hi hmi
  have h2 : (L.drop i).filter (fun p => decide (p < L[i])) = [] := by
    rw [List.filter_eq_nil_iff]
    intro x hx
    rcases List.getElem_of_mem hx with ⟨m, hm, rfl⟩
    have hm' : i + m < L.length := by
      rw [List.length_drop] at hm
      omega
    simp only [List.getElem_drop]
    have hge : L[i] ≤ L[i + m] := by
      rcases Nat.eq_or_lt_of_le (Nat.zero_le m) with hm0 | hm0
      · simp [← hm0]
      · have := hpw i (i + m) hi hm' (by omega)
        omega
    simp
    omega
  rw [h1, h2, List.append_nil, List.length_take]
  omega

theorem cntIn_between (words : List Nat) (numBits : Nat)
    (hnb : numBits ≤ 64 * words.length) (i j : Nat)
    (hj : j ≤ i) (hi : i < (bitPositions words numBits).length) :
    cntIn words ((bitPositions words numBits).getD j 0)
      ((bitPositions words numBits).getD i 0) = i - j := by
  have hji : j < (bitPositions words numBits).length := by omega
  rw [getD_pos _ _ hji, getD_pos _ _ hi]
  have hsorted := bitPositions_sorted words numBits
  have hmemi : (bitPositions words numBits)[i] < numBits := by
    have hm := List.getElem_mem hi
    exact ((mem_bitPositions words numBits _ hnb).mp hm).1
  have hmemj : (bitPositions words numBits)[j] < numBits := by
    have hm := List.getElem_mem hji
    exact ((mem_bitPositions words numBits _ hnb).mp hm).1
  have hle : (bitPositions words numBits)[j] ≤ (bitPositions words numBits)[i] := by
    rcases Nat.eq_or_lt_of_le hj with rfl | hlt
    · exact le_refl _
    · exact le_of_lt (bitPositions_strict words numBits j i hji hi hlt)
  have hsplit := cntIn_split words 0 (bitPositions words numBits)[j]
    (bitPositions words numBits)[i] (Nat.zero_le _) hle
  have hcj := cntIn_zero_eq words numBits (bitPositions words numBits)[j] hnb (by omega)
  have hci := cntIn_zero_eq words numBits (bitPositions words numBits)[i] hnb (by omega)
  rw [filter_lt_getElem_sorted _ hsorted j hji] at hcj
  rw [filter_lt_getElem_sorted _ hsorted i hi] at hci
  omega

theorem selectScan_correct (words : List Nat)
    (hwords : ∀ x ∈ words, x < 2 ^ 64)
    (t : Nat) (ht : bitAt words t = true) (htw : t / 64 < words.length) :
    ∀ fuel b0 s r, s < 64 → 64 * b0 + s ≤ t → t / 64 - b0 < fuel →
      r = cntIn words (64 * b0 + s) t →
      selectScanFuel fuel words b0
        (words.getD b0 0 &&& (2 ^ 64 - 1) <<< s % 2 ^ 64) r = t := by
  intro fuel
  induction fuel with
  | zero =>
    intro b0 s r hs hle hfuel hr
    omega
  | succ f ih =>
    intro b0 s r hs hle hfuel hr
    simp only [selectScanFuel]
    have hword := getD_lt_of_forall words hwords b0
    have hpop : popcount (words.getD b0 0 &&& (2 ^ 64 - 1) <<< s % 2 ^ 64)
        = cntIn words (64 * b0 + s) (64 * b0 + 64) :=
      countP_masked_range words b0 s 64 (by omega) (by norm_num)
    rw [hpop]
    by_cases hcase : t / 64 = b0
    · have htlt : t < 64 * b0 + 64 := by omega
      have hsplit := cntIn_split words (64 * b0 + s) t (64 * b0 + 64)
        (by omega) (by omega)
      have hone : cntIn words t (t + 1) = 1 := by
        unfold cntIn
        rw [show t + 1 - t = 1 by omega, List.range'_one]
        simp [ht]
      have hsplit2 := cntIn_split words t (t + 1) (64 * b0 + 64)
        (by omega) (by omega)
      rw [if_pos (by omega)]
      have hsr : s ≤ t % 64 := by omega
      have hr2 : r = ((List.range (t % 64)).filter
          (fun j => (words.getD b0 0 &&&
            (2 ^ 64 - 1) <<< s % 2 ^ 64).testBit j)).length := by
        rw [countP_masked_range words b0 s (t % 64) hsr (by omega)]
        rw [hr]
        congr 1
        omega
      have hmaskbit : (words.getD b0 0 &&&
          (2 ^ 64 - 1) <<< s % 2 ^ 64).testBit (t % 64) = true := by
        have hidx : t / 64 = b0 := hcase
        have hbit : (words.getD b0 0).testBit (t % 64) = true := by
          unfold bitAt at ht
          rw [hidx] at ht
          exact ht
        simp only [Nat.testBit_and, Nat.testBit_mod_two_pow, Nat.testBit_shiftLeft,
          Nat.testBit_two_pow_sub_one, hbit]
        simp [show s ≤ t % 64 by omega, show t % 64 < 64 by omega,
          show t % 64 - s < 64 by omega]
      rw [hr2, select_in_word_eq _ _ (by omega) hmaskbit]
      omega
    · have hb0 : b0 < t / 64 := by omega
      have hge : 64 * b0 + 64 ≤ t := by omega
      have hsplit := cntIn_split words (64 * b0 + s) (64 * b0 + 64) t
        (by omega) (by omega)
      rw [if_neg (by omega), if_neg (by omega)]
      have hword1 := getD_lt_of_forall words hwords (b0 + 1)
      rw [← and_highmask_zero (words.getD (b0 + 1) 0) hword1]
      apply ih (b0 + 1) 0 _ (by norm_num) (by omega) (by omega)
      rw [hr]
      have : 64 * (b0 + 1) + 0 = 64 * b0 + 64 := by ring
      rw [this]
      omega

end PTHashVerify

namespace PTHashVerify

theorem headD_eq_getD (c : List Nat) : c.headD 0 = c.getD 0 0 := by
  cases c <;> rfl

theorem getLastD_eq_getD (c : List Nat) :
    c.getLastD 0 = c.getD (c.length - 1) 0 := by
  rw [List.getLastD_eq_getLast?, List.getLast?_eq_getElem?,
    List.getD_eq_getElem?_getD]

theorem sorted_headD_le (c : List Nat) (hc : c.Pairwise (· < ·)) (m : Nat)
    (hm : m < c.length) : c.headD 0 ≤ c.getD m 0 := by
  rw [headD_eq_getD, getD_pos _ _ hm, getD_pos _ _ (by omega)]
  rcases Nat.eq_or_lt_of_le (Nat.zero_le m) with hm0 | hm0
  · simp [← hm0]
  · exact le_of_lt ((List.pairwise_iff_getElem.mp hc) 0 m (by omega) hm hm0)

theorem sorted_getD_le_last (c : List Nat) (hc : c.Pairwise (· < ·)) (m : Nat)
    (hm : m < c.length) : c.getD m 0 ≤ c.getLastD 0 := by
  rw [getLastD_eq_getD, getD_pos _ _ hm, getD_pos _ _ (by omega)]
  rcases Nat.eq_or_lt_of_le (Nat.le_of_lt_succ (by omega : m < c.length - 1 + 1))
    with hm0 | hm0
  · simp [hm0]
  · exact le_of_lt ((List.pairwise_iff_getElem.mp hc) m (c.length - 1)
      hm (by omega) hm0)

theorem darrayBuildLoop_eq_processChunks (ps : List Nat) :
    ∀ (cur : List Nat) (bi : List Int) (sbi ovf : List Nat), cur.length < 1024 →
      darrayBuildLoop ps cur bi sbi ovf = processChunks (cur ++ ps) (bi, sbi, ovf) := by
  induction ps with
  | nil =>
    intro cur bi sbi ovf hcur
    simp only [darrayBuildLoop]
    rw [processChunks]
    simp only [List.append_nil]
    by_cases hc : cur = []
    · subst hc
      simp
    · rw [if_neg hc, if_pos hcur]
      have : cur.isEmpty = false := by
        simpa [List.isEmpty_iff] using hc
      rw [this]
      simp
  | cons p rest ih =>
    intro cur bi sbi ovf hcur
    simp only [darrayBuildLoop]
    by_cases hfull : (cur ++ [p]).length = 1024
    · rw [if_pos hfull]
      rw [ih [] _ _ _ (by norm_num), List.nil_append]
      conv_rhs => rw [processChunks]
      have hne : cur ++ p :: rest ≠ [] := by simp
      have hlen : (cur ++ p :: rest).length = 1024 + rest.length := by
        simp only [List.length_append, List.length_cons, List.length_nil]
          at hfull ⊢
        omega
      rw [if_neg hne, if_neg (by omega)]
      have hsplit : cur ++ p :: rest = (cur ++ [p]) ++ rest := by simp
      rw [hsplit, List.take_left' hfull, List.drop_left' hfull]
    · rw [if_neg hfull]
      rw [ih (cur ++ [p]) _ _ _ (by
        simp only [List.length_append, List.length_cons, List.length_nil]
          at hfull ⊢
        omega)]
      have hassoc : cur ++ [p] ++ rest = cur ++ p :: rest := by simp
      rw [hassoc]

theorem flush_cur_block_spec (c : List Nat) (bi : List Int) (sbi ovf : List Nat)
    (hc : c.Pairwise (· < ·)) (loc : Nat) (hloc : loc < c.length) :
    (flush_cur_block c bi sbi ovf).1.length = bi.length + 1 ∧
    (flush_cur_block c bi sbi ovf).2.1.length = sbi.length + (c.length + 31) / 32 ∧
    (if c.getLastD 0 - c.headD 0 < 2 ^ 16 then
      (flush_cur_block c bi sbi ovf).1.getD bi.length 0 = Int.ofNat (c.headD 0) ∧
      (flush_cur_block c bi sbi ovf).2.2 = ovf ∧
      (flush_cur_block c bi sbi ovf).2.1.getD (sbi.length + loc / 32) 0
        = c.getD (32 * (loc / 32)) 0 - c.headD 0
    else
      (flush_cur_block c bi sbi ovf).1.getD bi.length 0
        = -(Int.ofNat ovf.length) - 1 ∧
      (flush_cur_block c bi sbi ovf).2.2.length = ovf.length + c.length ∧
      (flush_cur_block c bi sbi ovf).2.2.getD (ovf.length + loc) 0
        = c.getD loc 0) := by
  unfold flush_cur_block
  by_cases hdense : c.getLastD 0 - c.headD 0 < 2 ^ 16
  · rw [if_pos hdense, if_pos hdense]
    dsimp only
    simp only [List.length_append, List.length_cons, List.length_map,
      List.length_range, List.length_nil]
    refine ⟨trivial, trivial, ?_, trivial, ?_⟩
    · exact getD_append_sandwich _ _ _ _
    · rw [List.getD_append_right _ _ _ _ (by omega),
        show sbi.length + loc / 32 - sbi.length = loc / 32 by omega,
        getD_map_range _ _ _ (by omega)]
      have h32 : 32 * (loc / 32) < c.length := by omega
      have hle1 := sorted_headD_le c hc (32 * (loc / 32)) h32
      have hle2 := sorted_getD_le_last c hc (32 * (loc / 32)) h32
      apply Nat.mod_eq_of_lt
      omega
  · rw [if_neg hdense, if_neg hdense]
    dsimp only
    simp only [List.length_append, List.length_cons, List.length_replicate,
      List.length_nil]
    refine ⟨trivial, trivial, ?_, trivial, ?_⟩
    · exact getD_append_sandwich _ _ _ _
    · rw [List.getD_append_right _ _ _ _ (by omega),
        show ovf.length + loc - ovf.length = loc by omega]

end PTHashVerify

namespace PTHashVerify

theorem flush_cur_block_extends (c : List Nat) (bi : List Int) (sbi ovf : List Nat) :
    ∃ X Y Z, flush_cur_block c bi sbi ovf = (bi ++ X, sbi ++ Y, ovf ++ Z) := by
  unfold flush_cur_block
  split
  · exact ⟨[Int.ofNat (c.headD 0)],
      (List.range ((c.length + 31) / 32)).map
        (fun k => (c.getD (32 * k) 0 - c.headD 0) % 2 ^ 16), [],
      by simp⟩
  · exact ⟨[-(Int.ofNat ovf.length) - 1],
      List.replicate ((c.length + 31) / 32) (2 ^ 16 - 1), c, rfl⟩

theorem processChunks_extends : ∀ (N : Nat) (xs : List Nat) (bi : List Int)
    (sbi ovf : List Nat), xs.length ≤ N →
    ∃ X Y Z, processChunks xs (bi, sbi, ovf) = (bi ++ X, sbi ++ Y, ovf ++ Z) := by
  intro N
  induction N with
  | zero =>
    intro xs bi sbi ovf hlen
    have hx : xs = [] := List.length_eq_zero.mp (by omega)
    subst hx
    rw [processChunks]
    exact ⟨[], [], [], by simp⟩
  | succ N ih =>
    intro xs bi sbi ovf hlen
    rw [processChunks]
    by_cases h1 : xs = []
    · rw [if_pos h1]
      exact ⟨[], [], [], by simp⟩
    · rw [if_neg h1]
      by_cases h2 : xs.length < 1024
      · rw [if_pos h2]
        exact flush_cur_block_extends xs bi sbi ovf
      · rw [if_neg h2]
        dsimp only
        obtain ⟨X1, Y1, Z1, h3⟩ := flush_cur_block_extends (xs.take 1024) bi sbi ovf
        rw [h3]
        obtain ⟨X2, Y2, Z2, h4⟩ := ih (xs.drop 1024) (bi ++ X1) (sbi ++ Y1)
          (ovf ++ Z1) (by simp only [List.length_drop]; omega)
        rw [h4]
        exact ⟨X1 ++ X2, Y1 ++ Y2, Z1 ++ Z2, by simp⟩

theorem processChunks_spec : ∀ (N : Nat) (xs : List Nat) (bi0 : List Int)
    (sbi0 ovf0 : List Nat), xs.length ≤ N → xs.Pairwise (· < ·) →
    sbi0.length = 32 * bi0.length →
    ∀ i, i < xs.length →
    (bi0.length + i / 1024 < (processChunks xs (bi0, sbi0, ovf0)).1.length) ∧
    (if ((xs.drop (1024 * (i / 1024))).take 1024).getLastD 0
        - ((xs.drop (1024 * (i / 1024))).take 1024).headD 0 < 2 ^ 16 then
      (processChunks xs (bi0, sbi0, ovf0)).1.getD (bi0.length + i / 1024) 0
        = Int.ofNat (((xs.drop (1024 * (i / 1024))).take 1024).headD 0) ∧
      32 * bi0.length + i / 32 < (processChunks xs (bi0, sbi0, ovf0)).2.1.length ∧
      (processChunks xs (bi0, sbi0, ovf0)).2.1.getD (32 * bi0.length + i / 32) 0
        = ((xs.drop (1024 * (i / 1024))).take 1024).getD (32 * (i % 1024 / 32)) 0
          - ((xs.drop (1024 * (i / 1024))).take 1024).headD 0
    else
      ∃ V, (processChunks xs (bi0, sbi0, ovf0)).1.getD (bi0.length + i / 1024) 0
          = -(Int.ofNat V) - 1 ∧
        V + i % 1024 < (processChunks xs (bi0, sbi0, ovf0)).2.2.length ∧
        (processChunks xs (bi0, sbi0, ovf0)).2.2.getD (V + i % 1024) 0
          = xs.getD i 0) := by
  intro N
  induction N with
  | zero =>
    intro xs bi0 sbi0 ovf0 hlen hsort hsbi i hi
    omega
  | succ N ih =>
    intro xs bi0 sbi0 ovf0 hlen hsort hsbi i hi
    have hxne : xs ≠ [] := by
      intro h
      subst h
      simp at hi
    rw [processChunks, if_neg hxne]
    by_cases hsmall : xs.length < 1024
    · rw [if_pos hsmall]
      dsimp only
      have hdiv : i / 1024 = 0 := by omega
      have hmod : i % 1024 = i := by omega
      have hchunk : (xs.drop (1024 * (i / 1024))).take 1024 = xs := by
        rw [hdiv]
        simp only [Nat.mul_zero, List.drop_zero]
        exact List.take_of_length_le (by omega)
      obtain ⟨hl1, hl2, hif⟩ := flush_cur_block_spec xs bi0 sbi0 ovf0 hsort i hi
      rw [hchunk, hdiv, hmod]
      refine ⟨by omega, ?_⟩
      by_cases hdense : xs.getLastD 0 - xs.headD 0 < 2 ^ 16
      · rw [if_pos hdense]
        rw [if_pos hdense] at hif
        obtain ⟨ha, hb, hc⟩ := hif
        rw [hsbi] at hc
        exact ⟨by simpa using ha, by omega, hc⟩
      · rw [if_neg hdense]
        rw [if_neg hdense] at hif
        obtain ⟨ha, hb, hc⟩ := hif
        exact ⟨ovf0.length, by simpa using ha, by omega, hc⟩
    · rw [if_neg hsmall]
      dsimp only
      have hlen1024 : (xs.take 1024).length = 1024 := by
        rw [List.length_take]
        omega
      have hsort1024 : (xs.take 1024).Pairwise (· < ·) := hsort.take
      obtain ⟨hl1, hl2, _hif0⟩ := flush_cur_block_spec (xs.take 1024) bi0 sbi0 ovf0
        hsort1024 0 (by omega)
      have heta : flush_cur_block (xs.take 1024) bi0 sbi0 ovf0
          = ((flush_cur_block (xs.take 1024) bi0 sbi0 ovf0).1,
             (flush_cur_block (xs.take 1024) bi0 sbi0 ovf0).2.1,
             (flush_cur_block (xs.take 1024) bi0 sbi0 ovf0).2.2) := rfl
      by_cases hicase : i < 1024
      · -- the element lies in the chunk flushed now
        obtain ⟨_, _, hfif⟩ := flush_cur_block_spec (xs.take 1024) bi0 sbi0 ovf0
          hsort1024 i (by omega)
        obtain ⟨X, Y, Z, hext⟩ := processChunks_extends (xs.drop 1024).length
          (xs.drop 1024) (flush_cur_block (xs.take 1024) bi0 sbi0 ovf0).1
          (flush_cur_block (xs.take 1024) bi0 sbi0 ovf0).2.1
          (flush_cur_block (xs.take 1024) bi0 sbi0 ovf0).2.2 (le_refl _)
        rw [heta, hext]
        have hdiv : i / 1024 = 0 := by omega
        have hmod : i % 1024 = i := by omega
        have hchunk : (xs.drop (1024 * (i / 1024))).take 1024 = xs.take 1024 := by
          rw [hdiv]
          simp only [Nat.mul_zero, List.drop_zero]
        rw [hchunk, hdiv, hmod]
        dsimp only
        refine ⟨by simp only [List.length_append]; omega, ?_⟩
        by_cases hdense : (xs.take 1024).getLastD 0 - (xs.take 1024).headD 0 < 2 ^ 16
        · rw [if_pos hdense]
          rw [if_pos hdense] at hfif
          obtain ⟨ha, hb, hc⟩ := hfif
          refine ⟨?_, ?_, ?_⟩
          · rw [Nat.add_zero, List.getD_append _ _ _ _ (by omega)]
            exact ha
          · simp only [List.length_append]
            omega
          · rw [List.getD_append _ _ _ _ (by omega), ← hsbi]
            exact hc
        · rw [if_neg hdense]
          rw [if_neg hdense] at hfif
          obtain ⟨ha, hb, hc⟩ := hfif
          refine ⟨ovf0.length, ?_, ?_, ?_⟩
          · rw [Nat.add_zero, List.getD_append _ _ _ _ (by omega)]
            exact ha
          · simp only [List.length_append]
            omega
          · rw [List.getD_append _ _ _ _ (by omega), hc]
            exact getD_take xs 1024 i hicase
      · -- the element lies in a later chunk: recurse
        have hi' : i - 1024 < (xs.drop 1024).length := by
          simp only [List.length_drop]
          omega
        have ihy := ih (xs.drop 1024)
          (flush_cur_block (xs.take 1024) bi0 sbi0 ovf0).1
          (flush_cur_block (xs.take 1024) bi0 sbi0 ovf0).2.1
          (flush_cur_block (xs.take 1024) bi0 sbi0 ovf0).2.2
          (by simp only [List.length_drop]; omega) hsort.drop
          (by rw [hl1, hl2, hsbi, hlen1024]; omega) (i - 1024) hi'
        rw [heta]
        rw [List.drop_drop, getD_drop] at ihy
        rw [show 1024 + 1024 * ((i - 1024) / 1024) = 1024 * (i / 1024) by omega,
          show (i - 1024) % 1024 = i % 1024 by omega,
          show 1024 + (i - 1024) = i by omega, hl1,
          show bi0.length + 1 + (i - 1024) / 1024 = bi0.length + i / 1024 by omega,
          show 32 * (bi0.length + 1) + (i - 1024) / 32 = 32 * bi0.length + i / 32
            by omega] at ihy
        exact ihy

end PTHashVerify

namespace PTHashVerify

/-- C5: darray select correctness.  For every bit vector (given by its 64-bit
words and its bit length) and every rank i below the number of set bits,
darray::select after darray::build returns the position of the (i+1)-th set
bit, i.e. the i-th entry of the ascending list of set-bit positions. -/
theorem darray_select_correct (words : List Nat) (numBits : Nat)
    (hwords : ∀ x ∈ words, x < 2 ^ 64)
    (hnb : numBits ≤ 64 * words.length) (i : Nat)
    (hi : i < (bitPositions words numBits).length) :
    darray.select (darray.build words numBits) words numBits i
      = (bitPositions words numBits).getD i 0 := by
  have hsort := bitPositions_sorted words numBits
  have hbuild : darray.build words numBits
      = ⟨(bitPositions words numBits).length,
         (darrayBuildLoop (bitPositions words numBits) [] [] [] []).1,
         (darrayBuildLoop (bitPositions words numBits) [] [] [] []).2.1,
         (darrayBuildLoop (bitPositions words numBits) [] [] [] []).2.2⟩ := rfl
  rw [hbuild, darrayBuildLoop_eq_processChunks _ [] [] [] [] (by simp),
    List.nil_append]
  have spec := processChunks_spec (bitPositions words numBits).length
    (bitPositions words numBits) [] [] [] (le_refl _) hsort (by simp) i hi
  simp only [List.length_nil, Nat.zero_add, Nat.mul_zero, Nat.add_zero] at spec
  obtain ⟨hblock, hif⟩ := spec
  unfold darray.select
  dsimp only
  rw [if_neg (by omega)]
  by_cases hdense :
      (((bitPositions words numBits).drop (1024 * (i / 1024))).take 1024).getLastD 0
        - (((bitPositions words numBits).drop (1024 * (i / 1024))).take 1024).headD 0
        < 2 ^ 16
  · rw [if_pos hdense] at hif
    obtain ⟨ha, hsb, hc⟩ := hif
    have hcast : Int.ofNat
        ((((bitPositions words numBits).drop (1024 * (i / 1024))).take 1024).headD 0)
        = ((((bitPositions words numBits).drop (1024 * (i / 1024))).take 1024).headD 0
            : Int) := rfl
    rw [hcast] at ha
    rw [ha, if_neg (by omega), if_neg (by omega), hc]
    have htn : (((((bitPositions words numBits).drop (1024 * (i / 1024))).take
          1024).headD 0 : Int)).toNat
        = (((bitPositions words numBits).drop (1024 * (i / 1024))).take 1024).headD 0 := rfl
    rw [htn]
    have hclen : (((bitPositions words numBits).drop (1024 * (i / 1024))).take 1024).length
        = min 1024 ((bitPositions words numBits).length - 1024 * (i / 1024)) := by
      rw [List.length_take, List.length_drop]
    have hm : 32 * (i % 1024 / 32)
        < (((bitPositions words numBits).drop (1024 * (i / 1024))).take 1024).length := by
      omega
    have hcs : (((bitPositions words numBits).drop (1024 * (i / 1024))).take 1024).Pairwise
        (· < ·) := hsort.drop.take
    have hle := sorted_headD_le _ hcs _ hm
    have hstart : (((bitPositions words numBits).drop (1024 * (i / 1024))).take 1024).headD 0
        + ((((bitPositions words numBits).drop (1024 * (i / 1024))).take 1024).getD
            (32 * (i % 1024 / 32)) 0
          - (((bitPositions words numBits).drop (1024 * (i / 1024))).take 1024).headD 0)
        = (((bitPositions words numBits).drop (1024 * (i / 1024))).take 1024).getD
            (32 * (i % 1024 / 32)) 0 := by
      omega
    rw [hstart]
    have hgd : (((bitPositions words numBits).drop (1024 * (i / 1024))).take 1024).getD
        (32 * (i % 1024 / 32)) 0
        = (bitPositions words numBits).getD
            (1024 * (i / 1024) + 32 * (i % 1024 / 32)) 0 := by
      rw [getD_take _ _ _ (by omega), getD_drop]
    rw [hgd]
    by_cases hrem : i % 32 = 0
    · rw [if_pos hrem]
      have hji : 1024 * (i / 1024) + 32 * (i % 1024 / 32) = i := by omega
      rw [hji]
    · rw [if_neg hrem]
      have hjd : 1024 * (i / 1024) + 32 * (i % 1024 / 32)
          < (bitPositions words numBits).length := by omega
      have hpj : (bitPositions words numBits).getD
          (1024 * (i / 1024) + 32 * (i % 1024 / 32)) 0 < numBits := by
        rw [getD_pos _ _ hjd]
        exact ((mem_bitPositions words numBits _ hnb).mp (List.getElem_mem hjd)).1
      rw [if_neg (by omega)]
      have ht : bitAt words ((bitPositions words numBits).getD i 0) = true := by
        rw [getD_pos _ _ hi]
        exact ((mem_bitPositions words numBits _ hnb).mp (List.getElem_mem hi)).2
      have htlt : (bitPositions words numBits).getD i 0 < numBits := by
        rw [getD_pos _ _ hi]
        exact ((mem_bitPositions words numBits _ hnb).mp (List.getElem_mem hi)).1
      have hpjt : (bitPositions words numBits).getD
          (1024 * (i / 1024) + 32 * (i % 1024 / 32)) 0
          < (bitPositions words numBits).getD i 0 := by
        rw [getD_pos _ _ hjd, getD_pos _ _ hi]
        exact bitPositions_strict words numBits _ _ hjd hi (by omega)
      have hcnt := cntIn_between words numBits hnb i
        (1024 * (i / 1024) + 32 * (i % 1024 / 32)) (by omega) hi
      apply selectScan_correct words hwords _ ht (by omega) _ _ _ _
        (by omega) (by omega) (by omega)
      have h64 : 64 * ((bitPositions words numBits).getD
            (1024 * (i / 1024) + 32 * (i % 1024 / 32)) 0 / 64)
          + (bitPositions words numBits).getD
            (1024 * (i / 1024) + 32 * (i % 1024 / 32)) 0 % 64
          = (bitPositions words numBits).getD
            (1024 * (i / 1024) + 32 * (i % 1024 / 32)) 0 := by
        omega
      rw [h64, hcnt]
      omega
  · rw [if_neg hdense] at hif
    obtain ⟨V, ha, hb, hc⟩ := hif
    have hcast : Int.ofNat V = (V : Int) := rfl
    rw [hcast] at ha
    rw [ha, if_pos (by omega)]
    have htn : (-(-(V : Int) - 1) - 1).toNat = V := by omega
    rw [htn, if_neg (by omega)]
    exact hc

end PTHashVerify

namespace PTHashVerify

theorem darray_select_correct_witness :
    (∀ x ∈ ([2 ^ 0 + 2 ^ 5 + 2 ^ 63, 2 ^ 1] : List Nat), x < 2 ^ 64) ∧
    128 ≤ 64 * ([2 ^ 0 + 2 ^ 5 + 2 ^ 63, 2 ^ 1] : List Nat).length ∧
    2 < (bitPositions [2 ^ 0 + 2 ^ 5 + 2 ^ 63, 2 ^ 1] 128).length ∧
    darray.select (darray.build [2 ^ 0 + 2 ^ 5 + 2 ^ 63, 2 ^ 1] 128)
      [2 ^ 0 + 2 ^ 5 + 2 ^ 63, 2 ^ 1] 128 2
      = (bitPositions [2 ^ 0 + 2 ^ 5 + 2 ^ 63, 2 ^ 1] 128).getD 2 0 :=
  ⟨by decide, by decide, by decide,
   darray_select_correct [2 ^ 0 + 2 ^ 5 + 2 ^ 63, 2 ^ 1] 128 (by decide)
     (by decide) 2 (by decide)⟩

end PTHashVerify

namespace PTHashVerify

theorem sorted_lists_eq : ∀ (A B : List Nat), A.Pairwise (· < ·) →
    B.Pairwise (· < ·) → (∀ x, x ∈ A ↔ x ∈ B) → A = B
  | [], [], _, _, _ => rfl
  | [], b :: B, _, _, h => absurd ((h b).mpr (by simp)) (by simp)
  | a :: A, [], _, _, h => absurd ((h a).mp (by simp)) (by simp)
  | a :: A, b :: B, hA, hB, h => by
    have hAp := List.pairwise_cons.mp hA
    have hBp := List.pairwise_cons.mp hB
    have hab : a = b := by
      have ha' := (h a).mp (by simp)
      have hb' := (h b).mpr (by simp)
      rcases List.mem_cons.mp ha' with h1 | h1
      · exact h1
      · rcases List.mem_cons.mp hb' with h2 | h2
        · omega
        · have h3 := hAp.1 b h2
          have h4 := hBp.1 a h1
          omega
    subst hab
    have htail : ∀ x, x ∈ A ↔ x ∈ B := by
      intro x
      constructor
      · intro hx
        have hxa : a < x := hAp.1 x hx
        rcases List.mem_cons.mp ((h x).mp (List.mem_cons_of_mem a hx)) with h1 | h1
        · omega
        · exact h1
      · intro hx
        have hxa : a < x := hBp.1 x hx
        rcases List.mem_cons.mp ((h x).mpr (List.mem_cons_of_mem a hx)) with h1 | h1
        · omega
        · exact h1
    rw [sorted_lists_eq A B hAp.2 hBp.2 htail]

theorem getLastD_mem : ∀ (s : List Nat) (d : Nat), s = [] ∨ s.getLastD d ∈ s
  | [], _ => Or.inl rfl
  | a :: t, d => Or.inr (by
      rw [List.getLastD_cons]
      rcases getLastD_mem t a with rfl | h
      · simp
      · exact List.mem_cons_of_mem a h)

theorem getD_replicate_zero (m k : Nat) : (List.replicate m 0).getD k 0 = 0 := by
  rcases Nat.lt_or_ge k m with h | h
  · rw [getD_pos _ _ (by simpa using h)]
    simp
  · rw [List.getD_eq_default]
    simpa using h

theorem bitAt_replicate_zero (m p : Nat) : bitAt (List.replicate m 0) p = false := by
  unfold bitAt
  rw [getD_replicate_zero]
  exact Nat.zero_testBit _

theorem bitAt_setBit (B : bit_vector) (q p : Nat)
    (hq : q < 64 * B.m_data.length) :
    bitAt (B.setBit q).m_data p = true ↔ (bitAt B.m_data p = true ∨ p = q) := by
  have hqlen : q / 64 < B.m_data.length := by omega
  have honeb : ∀ t, (1 <<< (q % 64)).testBit t = decide (q % 64 = t) := by
    intro t
    rw [Nat.shiftLeft_eq, one_mul]
    by_cases h : q % 64 = t
    · subst h
      simp [Nat.testBit_two_pow_self]
    · simp [Nat.testBit_two_pow_of_ne h, h]
  unfold bit_vector.setBit bitAt
  dsimp only
  by_cases hpq : p / 64 = q / 64
  · rw [hpq, getD_set_same _ _ _ hqlen, Nat.testBit_or, honeb, Bool.or_eq_true]
    have hiff : (decide (q % 64 = p % 64) = true) ↔ p = q := by
      simp only [decide_eq_true_eq]
      omega
    rw [hiff]
  · rw [getD_set_other _ _ _ _ (by omega)]
    constructor
    · exact Or.inl
    · rintro (h | rfl)
      · exact h
      · exact absurd rfl hpq

theorem setBit_bound (B : bit_vector) (q : Nat)
    (hw : ∀ x ∈ B.m_data, x < 2 ^ 64) :
    ∀ x ∈ (B.setBit q).m_data, x < 2 ^ 64 := by
  unfold bit_vector.setBit
  dsimp only
  intro x hx
  rcases List.mem_or_eq_of_mem_set hx with h | rfl
  · exact hw x h
  · apply Nat.or_lt_two_pow
    · exact getD_lt_of_forall B.m_data hw _
    · rw [Nat.shiftLeft_eq, one_mul]
      calc 2 ^ (q % 64) ≤ 2 ^ 63 := Nat.pow_le_pow_right (by norm_num) (by omega)
        _ < 2 ^ 64 := by norm_num

theorem setBit_length (B : bit_vector) (q : Nat) :
    (B.setBit q).m_data.length = B.m_data.length := by
  simp [bit_vector.setBit]

theorem setBit_numBits (B : bit_vector) (q : Nat) :
    (B.setBit q).m_num_bits = B.m_num_bits := rfl

theorem cv_set_length (b : cv_builder) (i v : Nat) :
    (b.set i v).m_data.length = b.m_data.length := by
  unfold cv_builder.set
  dsimp only
  split <;> simp

theorem cvMask_lt_two_pow (w : Nat) (hw : w ≤ 64) : cvMask w < 2 ^ 64 := by
  have h1 : (2 : Nat) ^ w ≤ 2 ^ 64 := Nat.pow_le_pow_right (by norm_num) hw
  unfold cvMask
  split <;> omega

theorem shiftLeft_one_sub_one (l : Nat) : 1 <<< l - 1 = cvMask l := by
  unfold cvMask
  rw [Nat.shiftLeft_eq, one_mul]
  split
  · next h => rw [h]
  · rfl

theorem shiftRight_le_shiftRight (a b l : Nat) (h : a ≤ b) : a >>> l ≤ b >>> l := by
  rw [Nat.shiftRight_eq_div_pow, Nat.shiftRight_eq_div_pow]
  exact Nat.div_le_div_right h

theorem shift_mask_recomb (a l : Nat) :
    (a >>> l) <<< l ||| (a &&& (1 <<< l - 1)) = a := by
  have hm : (1 <<< l - 1 : Nat) = 2 ^ l - 1 := by
    rw [Nat.shiftLeft_eq, one_mul]
  rw [hm]
  apply Nat.eq_of_testBit_eq
  intro t
  simp only [Nat.testBit_or, Nat.testBit_shiftLeft, Nat.testBit_shiftRight,
    Nat.testBit_and, Nat.testBit_two_pow_sub_one]
  by_cases hlt : t < l
  · simp [hlt, show ¬ l ≤ t by omega]
  · simp [hlt, show l ≤ t by omega, show l + (t - l) = t by omega]

theorem cv_access_eq_read (n w : Nat) (data : List Nat) (i : Nat)
    (_hw1 : 1 ≤ w) (_hw : w ≤ 64) (hi : i < n)
    (hlen : data.length = words_for (n * w) + 1) :
    compact_vector.access ⟨n, w, cvMask w, data⟩ i
      = compact_vector.read ⟨n, w, cvMask w, data⟩ i := by
  unfold compact_vector.access compact_vector.read
  dsimp only
  by_cases hc : i * w % 64 + w ≤ 64
  · rw [if_pos hc, if_pos hc]
  · rw [if_neg hc, if_neg hc]
    have hiw : (i + 1) * w ≤ n * w := Nat.mul_le_mul_right w (by omega)
    have hiw' : (i + 1) * w = i * w + w := by ring
    have hblock : i * w / 64 + 1 < data.length := by
      unfold words_for at hlen
      omega
    rw [if_pos hblock]

end PTHashVerify

namespace PTHashVerify

theorem efEncodeLoop_spec (l lowMask n : Nat) (hl : l ≤ 64)
    (hmask : lowMask = cvMask l) :
    ∀ (s : List Nat) (hb : bit_vector) (lbdata : List Nat) (back i last : Nat),
      i + s.length = n →
      s.Pairwise (· ≤ ·) →
      (∀ x ∈ s, last ≤ x) →
      (∀ x ∈ hb.m_data, x < 2 ^ 64) →
      lbdata.length = words_for (n * l) + 1 →
      (∀ x ∈ lbdata, x < 2 ^ 64) →
      (∀ j, j < s.length → s.getD j 0 >>> l + (i + j) < 64 * hb.m_data.length) →
      ∃ hbF backF dataF lastF,
        efEncodeLoop l lowMask hb ⟨n, l, cvMask l, back, lbdata⟩ i last s
          = .ok (hbF, ⟨n, l, cvMask l, backF, dataF⟩, lastF) ∧
        hbF.m_num_bits = hb.m_num_bits ∧
        hbF.m_data.length = hb.m_data.length ∧
        (∀ x ∈ hbF.m_data, x < 2 ^ 64) ∧
        (∀ p, bitAt hbF.m_data p = true ↔
          (bitAt hb.m_data p = true ∨
            ∃ j, j < s.length ∧ p = s.getD j 0 >>> l + (i + j))) ∧
        dataF.length = lbdata.length ∧
        (∀ x ∈ dataF, x < 2 ^ 64) ∧
        (l = 0 → dataF = lbdata) ∧
        (1 ≤ l →
          (∀ k, k < i →
            compact_vector.read ⟨n, l, cvMask l, dataF⟩ k
              = compact_vector.read ⟨n, l, cvMask l, lbdata⟩ k) ∧
          (∀ j, j < s.length →
            compact_vector.read ⟨n, l, cvMask l, dataF⟩ (i + j)
              = s.getD j 0 &&& lowMask)) ∧
        lastF = s.getLastD last := by
  intro s
  induction s with
  | nil =>
    intro hb lbdata back i last hn hsort hlast hhw hlblen hlbw hpos
    refine ⟨hb, back, lbdata, last, rfl, rfl, rfl, hhw, ?_, rfl, hlbw,
      fun _ => rfl,
      fun _ => ⟨fun _ _ => rfl, fun j hj => absurd hj (by simp)⟩, rfl⟩
    intro p
    simp
  | cons v rest ih =>
    intro hb lbdata back i last hn hsort hlast hhw hlblen hlbw hpos
    have hlv : last ≤ v := hlast v (List.mem_cons_self v rest)
    have hrest_sorted : rest.Pairwise (· ≤ ·) := (List.pairwise_cons.mp hsort).2
    have hv_le : ∀ x ∈ rest, v ≤ x := (List.pairwise_cons.mp hsort).1
    have hq : v >>> l + i < 64 * hb.m_data.length := by
      have h0 := hpos 0 (by simp)
      simpa using h0
    have hpos' : ∀ j, j < rest.length →
        rest.getD j 0 >>> l + (i + 1 + j) < 64 * (hb.setBit (v >>> l + i)).m_data.length := by
      intro j hj
      rw [setBit_length]
      have h1 := hpos (j + 1) (by simp only [List.length_cons]; omega)
      rw [List.getD_cons_succ] at h1
      omega
    have hbitstep := fun p => bitAt_setBit hb (v >>> l + i) p hq
    rw [efEncodeLoop]
    rw [if_neg (by
      rintro ⟨-, hvl⟩
      omega)]
    by_cases hl0 : l = 0
    · rw [if_neg (by omega)]
      obtain ⟨hbF, backF, dataF, lastF, hloop, hnumF, hlenF, hwF, hbitF, hdlenF,
        hdwF, hd0F, hgF, hlastF⟩ :=
        ih (hb.setBit (v >>> l + i)) lbdata back (i + 1) v
          (by simp only [List.length_cons] at hn; omega)
          hrest_sorted hv_le (setBit_bound hb _ hhw) hlblen hlbw hpos'
      refine ⟨hbF, backF, dataF, lastF, hloop,
        hnumF.trans (setBit_numBits hb _),
        hlenF.trans (setBit_length hb _), hwF, ?_, hdlenF, hdwF, hd0F,
        fun hl1 => absurd hl0 (by omega), ?_⟩
      · intro p
        rw [hbitF p, hbitstep p]
        constructor
        · rintro ((h | rfl) | ⟨j, hj, rfl⟩)
          · exact Or.inl h
          · exact Or.inr ⟨0, by simp, by simp⟩
          · refine Or.inr ⟨j + 1, by simp only [List.length_cons]; omega, ?_⟩
            rw [List.getD_cons_succ]
            omega
        · rintro (h | ⟨j, hj, rfl⟩)
          · exact Or.inl (Or.inl h)
          · cases j with
            | zero => exact Or.inl (Or.inr (by simp))
            | succ j =>
              refine Or.inr ⟨j, by simp only [List.length_cons] at hj; omega, ?_⟩
              rw [List.getD_cons_succ]
              omega
      · rw [hlastF, List.getLastD_cons]
    · rw [if_pos hl0]
      have hl1 : 1 ≤ l := by omega
      have hin : i < n := by simp only [List.length_cons] at hn; omega
      have hvm : v &&& lowMask ≤ cvMask l := by
        rw [← hmask]
        exact Nat.and_le_right
      have hvm64 : v &&& lowMask < 2 ^ 64 :=
        lt_of_le_of_lt hvm (cvMask_lt_two_pow l hl)
      have hsetlit : cv_builder.set ⟨n, l, cvMask l, back, lbdata⟩ i (v &&& lowMask)
          = ⟨n, l, cvMask l,
             (cv_builder.set ⟨n, l, cvMask l, back, lbdata⟩ i (v &&& lowMask)).m_back,
             (cv_builder.set ⟨n, l, cvMask l, back, lbdata⟩ i (v &&& lowMask)).m_data⟩ :=
        rfl
      rw [hsetlit]
      have hsetlen : (cv_builder.set ⟨n, l, cvMask l, back, lbdata⟩ i
          (v &&& lowMask)).m_data.length = words_for (n * l) + 1 := by
        rw [cv_set_length]
        exact hlblen
      have hsetbound := cv_set_data_bound n l i (v &&& lowMask) back lbdata hl hlbw hvm64
      have hframe := cv_set_read_frame n l i (v &&& lowMask) back lbdata hl1 hl
        hlblen hlbw hin hvm
      obtain ⟨hbF, backF, dataF, lastF, hloop, hnumF, hlenF, hwF, hbitF, hdlenF,
        hdwF, hd0F, hgF, hlastF⟩ :=
        ih (hb.setBit (v >>> l + i))
          (cv_builder.set ⟨n, l, cvMask l, back, lbdata⟩ i (v &&& lowMask)).m_data
          (cv_builder.set ⟨n, l, cvMask l, back, lbdata⟩ i (v &&& lowMask)).m_back
          (i + 1) v
          (by simp only [List.length_cons] at hn; omega)
          hrest_sorted hv_le (setBit_bound hb _ hhw) hsetlen hsetbound hpos'
      refine ⟨hbF, backF, dataF, lastF, hloop,
        hnumF.trans (setBit_numBits hb _),
        hlenF.trans (setBit_length hb _), hwF, ?_,
        hdlenF.trans (cv_set_length _ _ _), hdwF,
        fun h0 => absurd h0 hl0, ?_, ?_⟩
      · intro p
        rw [hbitF p, hbitstep p]
        constructor
        · rintro ((h | rfl) | ⟨j, hj, rfl⟩)
          · exact Or.inl h
          · exact Or.inr ⟨0, by simp, by simp⟩
          · refine Or.inr ⟨j + 1, by simp only [List.length_cons]; omega, ?_⟩
            rw [List.getD_cons_succ]
            omega
        · rintro (h | ⟨j, hj, rfl⟩)
          · exact Or.inl (Or.inl h)
          · cases j with
            | zero => exact Or.inl (Or.inr (by simp))
            | succ j =>
              refine Or.inr ⟨j, by simp only [List.length_cons] at hj; omega, ?_⟩
              rw [List.getD_cons_succ]
              omega
      · intro _
        obtain ⟨hgk, hgj⟩ := hgF hl1
        constructor
        · intro k hk
          rw [hgk k (by omega), hframe k (by omega), if_neg (by omega)]
        · intro j hj
          cases j with
          | zero =>
            have h1 := hgk i (by omega)
            rw [Nat.add_zero]
            rw [h1, hframe i hin, if_pos rfl]
            simp
          | succ j =>
            have h1 := hgj j (by simp only [List.length_cons] at hj; omega)
            rw [List.getD_cons_succ,
              show i + (j + 1) = i + 1 + j by omega]
            exact h1
      · rw [hlastF, List.getLastD_cons]

end PTHashVerify

namespace PTHashVerify

/-- Claim C4: Elias-Fano round-trip.  For every monotone non-decreasing
sequence s of 64-bit values, every 64-bit universe argument at least the
maximum of s (or the uint64_t(-1) sentinel, which makes encode use the last
element), and every i < n, access(i) on the encoded structure returns s[i]:
the darray1 select over the high bits minus i recovers s[i] >> l and the
compact low-bits vector recovers s[i] mod 2^l. -/
theorem ef_encode_access_roundtrip (s : List Nat) (u : Nat) (ef : elias_fano)
    (hsorted : s.Pairwise (· ≤ ·))
    (hs64 : ∀ x ∈ s, x < 2 ^ 64)
    (hu64 : u < 2 ^ 64)
    (hu : ∀ x ∈ s, x ≤ (if u = 2 ^ 64 - 1 then s.getLastD 0 else u))
    (henc : elias_fano.encode s u = .ok ef)
    (i : Nat) (hi : i < s.length) :
    ef.access i = s.getD i 0 := by
  have hn : s.length ≠ 0 := by omega
  simp only [elias_fano.encode] at henc
  rw [if_neg hn] at henc
  set univ := if u = 2 ^ 64 - 1 then s.getLastD 0 else u with huniv
  set l := if univ / s.length ≠ 0 then Nat.log2 (univ / s.length) else 0 with hldef
  have huniv64 : univ < 2 ^ 64 := by
    rw [huniv]
    split
    · rcases getLastD_mem s 0 with h | h
      · exact absurd h (by intro h0; rw [h0] at hn; simp at hn)
      · exact hs64 _ h
    · exact hu64
  have hl64 : l ≤ 64 := by
    rw [hldef]
    split
    · next h =>
      have h2 : univ / s.length < 2 ^ 64 :=
        lt_of_le_of_lt (Nat.div_le_self _ _) huniv64
      have h3 := (Nat.log2_lt h).mpr h2
      omega
    · omega
  have hposmain : ∀ j, j < s.length →
      s.getD j 0 >>> l + (0 + j)
        < 64 * (bvbInit (s.length + univ >>> l + 1)).m_data.length := by
    intro j hj
    have h1 : s.getD j 0 >>> l ≤ univ >>> l :=
      shiftRight_le_shiftRight _ _ _
        (hu _ (by rw [getD_pos _ _ hj]; exact List.getElem_mem hj))
    have h2 : (bvbInit (s.length + univ >>> l + 1)).m_data.length
        = words_for (s.length + univ >>> l + 1) := by
      simp [bvbInit]
    rw [h2]
    unfold words_for
    omega
  obtain ⟨hbF, backF, dataF, lastF, hloop, hnumF, hlenF, hwF, hbitF, hdlenF, hdwF,
    hd0F, hgF, hlastF⟩ :=
    efEncodeLoop_spec l (1 <<< l - 1) s.length hl64 (shiftLeft_one_sub_one l)
      s (bvbInit (s.length + univ >>> l + 1))
      (List.replicate (words_for (s.length * l) + 1) 0) 0 0 0
      (by omega) hsorted (fun x _ => Nat.zero_le x)
      (by
        intro x hx
        rw [show (bvbInit (s.length + univ >>> l + 1)).m_data
            = List.replicate (words_for (s.length + univ >>> l + 1)) 0 from rfl] at hx
        rw [List.eq_of_mem_replicate hx]
        norm_num)
      (by simp)
      (by
        intro x hx
        rw [List.eq_of_mem_replicate hx]
        norm_num)
      hposmain
  rw [show cvbInit s.length l
      = (⟨s.length, l, cvMask l, 0,
          List.replicate (words_for (s.length * l) + 1) 0⟩ : cv_builder) from rfl] at henc
  rw [hloop] at henc
  simp only [Except.ok.injEq] at henc
  subst henc
  rw [show cv_builder.build ⟨s.length, l, cvMask l, backF, dataF⟩
      = (⟨s.length, l, cvMask l, dataF⟩ : compact_vector) from rfl]
  unfold elias_fano.access
  dsimp only
  have hNB : hbF.m_num_bits = s.length + univ >>> l + 1 := hnumF
  have hWL : hbF.m_data.length = words_for (s.length + univ >>> l + 1) := by
    rw [hlenF]
    simp [bvbInit]
  have hnbF : hbF.m_num_bits ≤ 64 * hbF.m_data.length := by
    rw [hNB, hWL]
    unfold words_for
    omega
  have hinitF : ∀ p, bitAt (bvbInit (s.length + univ >>> l + 1)).m_data p = false :=
    fun p => bitAt_replicate_zero _ p
  have hbit' : ∀ p, bitAt hbF.m_data p = true ↔
      ∃ j, j < s.length ∧ p = s.getD j 0 >>> l + j := by
    intro p
    rw [hbitF p, hinitF p]
    simp only [Bool.false_eq_true, false_or, Nat.zero_add]
  have hplt : ∀ j, j < s.length → s.getD j 0 >>> l + j < hbF.m_num_bits := by
    intro j hj
    have h1 : s.getD j 0 >>> l ≤ univ >>> l :=
      shiftRight_le_shiftRight _ _ _
        (hu _ (by rw [getD_pos _ _ hj]; exact List.getElem_mem hj))
    rw [hNB]
    omega
  have hP : bitPositions hbF.m_data hbF.m_num_bits
      = (List.range s.length).map (fun j => s.getD j 0 >>> l + j) := by
    apply sorted_lists_eq _ _ (bitPositions_sorted _ _)
    · rw [List.pairwise_iff_getElem]
      intro a b ha hb' hab
      simp only [List.length_map, List.length_range] at ha hb'
      simp only [List.getElem_map, List.getElem_range]
      have hmono : s[a] ≤ s[b] :=
        List.pairwise_iff_getElem.mp hsorted a b ha hb' hab
      have h2 : s.getD a 0 ≤ s.getD b 0 := by
        rw [getD_pos _ _ ha, getD_pos _ _ hb']
        exact hmono
      have h3 := shiftRight_le_shiftRight _ _ l h2
      omega
    · intro x
      rw [mem_bitPositions _ _ _ hnbF]
      constructor
      · rintro ⟨hxlt, hxbit⟩
        rcases (hbit' x).mp hxbit with ⟨j, hj, rfl⟩
        simp only [List.mem_map, List.mem_range]
        exact ⟨j, hj, rfl⟩
      · intro hx
        simp only [List.mem_map, List.mem_range] at hx
        rcases hx with ⟨j, hj, rfl⟩
        exact ⟨hplt j hj, (hbit' _).mpr ⟨j, hj, rfl⟩⟩
  have hi' : i < (bitPositions hbF.m_data hbF.m_num_bits).length := by
    rw [hP]
    simpa using hi
  rw [darray_select_correct hbF.m_data hbF.m_num_bits hwF hnbF i hi', hP,
    getD_map_range _ _ _ hi, Nat.add_sub_cancel]
  by_cases hl0 : l = 0
  · rw [hd0F hl0, hl0]
    have hacc : compact_vector.access
        ⟨s.length, 0, cvMask 0,
          List.replicate (words_for (s.length * 0) + 1) 0⟩ i = 0 := by
      unfold compact_vector.access
      dsimp only
      rw [if_pos (by omega), getD_replicate_zero]
      simp [cvMask]
    rw [hacc]
    simp
  · have hl1 : 1 ≤ l := by omega
    obtain ⟨hgk, hgj⟩ := hgF hl1
    have hlow := hgj i hi
    rw [Nat.zero_add] at hlow
    have hdlen' : dataF.length = words_for (s.length * l) + 1 := by
      rw [hdlenF]
      simp
    rw [cv_access_eq_read s.length l dataF i hl1 hl64 hi hdlen', hlow]
    exact shift_mask_recomb (s.getD i 0) l

end PTHashVerify

namespace PTHashVerify

/-- Witness for C4: the sequence [3, 8, 10, 15, 21, 22, 30, 31, 45, 50]
encoded with universe 50; access(7) returns 31. -/
theorem ef_encode_access_roundtrip_witness :
    ([3, 8, 10, 15, 21, 22, 30, 31, 45, 50] : List Nat).Pairwise (· ≤ ·) ∧
    (∀ x ∈ ([3, 8, 10, 15, 21, 22, 30, 31, 45, 50] : List Nat), x < 2 ^ 64) ∧
    50 < 2 ^ 64 ∧
    (∀ x ∈ ([3, 8, 10, 15, 21, 22, 30, 31, 45, 50] : List Nat),
      x ≤ (if (50 : Nat) = 2 ^ 64 - 1 then
        ([3, 8, 10, 15, 21, 22, 30, 31, 45, 50] : List Nat).getLastD 0 else 50)) ∧
    7 < ([3, 8, 10, 15, 21, 22, 30, 31, 45, 50] : List Nat).length ∧
    ((elias_fano.encode [3, 8, 10, 15, 21, 22, 30, 31, 45, 50] 50).toOption.getD
        elias_fano.init).access 7
      = ([3, 8, 10, 15, 21, 22, 30, 31, 45, 50] : List Nat).getD 7 0 :=
  ⟨by decide, by decide, by decide, by decide, by decide,
   ef_encode_access_roundtrip [3, 8, 10, 15, 21, 22, 30, 31, 45, 50] 50
     ((elias_fano.encode [3, 8, 10, 15, 21, 22, 30, 31, 45, 50] 50).toOption.getD
       elias_fano.init)
     (by decide) (by decide) (by decide) (by decide) rfl 7 (by decide)⟩

end PTHashVerify
